import Mathlib

/-!
A shallow embedding of the repository's Klipper configuration parser
(class ConfigParser: parseConfig, extractIncludes, parseKlipperConfig,
parseValue, validateSectionName, validateParameter, formatConfig),
together with spec-level reference definitions and theorems settling the
frozen claims about it.

Strings are modelled as Lean String (a wrapper around List Char); JavaScript
numbers are modelled as exact rationals (the IEEE-754 rounding of literals is
abstracted away: every numeric literal denotes its exact rational value).
The JavaScript regular expressions used by the source are embedded as
deterministic matching functions that follow the regex engine's
leftmost/greedy/lazy backtracking discipline for the four concrete patterns
involved.
-/

/-- JavaScript LineTerminator characters (ECMA-262): LF, CR, LS, PS.
These are the positions where a multiline `^` / `$` anchors. -/
def isLineTerm (c : Char) : Bool :=
  c == '\n' || c == '\r' || c == Char.ofNat 0x2028 || c == Char.ofNat 0x2029

/-- JavaScript whitespace as matched by `\s` and trimmed by String.trim:
WhiteSpace (TAB VT FF SP NBSP ZWNBSP and Unicode space separators) plus
LineTerminator. -/
def isJsWs (c : Char) : Bool :=
  let n := c.toNat
  n == 0x9 || n == 0xb || n == 0xc || n == 0x20 || n == 0xa0 || n == 0xfeff ||
  n == 0x1680 || (0x2000 ≤ n && n ≤ 0x200a) || n == 0x202f || n == 0x205f ||
  n == 0x3000 || isLineTerm c

/-- JavaScript String.prototype.trim on a character list:
drop whitespace from both ends. -/
def trimL (l : List Char) : List Char :=
  ((l.dropWhile isJsWs).reverse.dropWhile isJsWs).reverse

/-- JavaScript String.prototype.trim. -/
def jsTrim (s : String) : String := ⟨trimL s.data⟩

/-- JavaScript String.prototype.split with a single-character separator:
`"".split(c) = [""]`, separators delimit (possibly empty) fields. -/
def splitCh (c : Char) : List Char → List (List Char)
  | [] => [[]]
  | x :: xs =>
    if x = c then [] :: splitCh c xs
    else
      match splitCh c xs with
      | [] => [[x]]
      | y :: ys => (x :: y) :: ys

/-- String-level split on one character. -/
def jsSplit (c : Char) (s : String) : List String :=
  (splitCh c s.data).map (⟨·⟩)

/-- ASCII decimal digit. -/
def isDigitC (c : Char) : Bool := '0' ≤ c && c ≤ '9'

/-- ASCII letter (the `[A-Za-z]` class of the pin-format regex). -/
def isAsciiLetter (c : Char) : Bool :=
  ('A' ≤ c && c ≤ 'Z') || ('a' ≤ c && c ≤ 'z')

def digitVal (c : Char) : Nat := c.toNat - '0'.toNat

def natOfDigits (l : List Char) : Nat :=
  l.foldl (fun a c => a * 10 + digitVal c) 0

/-- Hex digit test for the `0x` literal form of Number(). -/
def isHexDigit (c : Char) : Bool :=
  isDigitC c || ('a' ≤ c && c ≤ 'f') || ('A' ≤ c && c ≤ 'F')

def hexVal (c : Char) : Nat :=
  if isDigitC c then digitVal c
  else if 'a' ≤ c && c ≤ 'f' then c.toNat - 'a'.toNat + 10
  else c.toNat - 'A'.toNat + 10

def natOfHexDigits (l : List Char) : Nat :=
  l.foldl (fun a c => a * 16 + hexVal c) 0

def isOctDigit (c : Char) : Bool := '0' ≤ c && c ≤ '7'

def natOfOctDigits (l : List Char) : Nat :=
  l.foldl (fun a c => a * 8 + digitVal c) 0

def isBinDigit (c : Char) : Bool := c == '0' || c == '1'

def natOfBinDigits (l : List Char) : Nat :=
  l.foldl (fun a c => a * 2 + digitVal c) 0

/-- The result of JavaScript `Number(string)`: NaN, an infinity, or a finite
value (modelled exactly as a rational). -/
inductive JsNum where
  | nan : JsNum
  | posInf : JsNum
  | negInf : JsNum
  | fin : ℚ → JsNum
deriving DecidableEq, Repr

/-- The exact rational m * 10^e (integer mantissa, integer exponent),
computed with kernel-friendly integer arithmetic via mkRat. -/
def ratScaled (m : ℤ) (e : ℤ) : ℚ :=
  if 0 ≤ e then mkRat (m * (10 : ℤ) ^ e.toNat) 1
  else mkRat m ((10 : ℕ) ^ (-e).toNat)

/-- StrDecimalLiteral of ECMA-262 ToNumber (after the optional sign):
DecimalDigits [. DecimalDigits] [ExponentPart] | . DecimalDigits
[ExponentPart]; the whole remaining input must be consumed.  The denoted
value is the exact rational (intdigits.fracdigits) * 10^exponent. -/
def parseDecTail (cs : List Char) (sgn : ℤ) : JsNum :=
  let ip := cs.takeWhile isDigitC
  let r1 := cs.dropWhile isDigitC
  let hadDot : Bool := r1.head? == some '.'
  let fp := if hadDot then r1.tail.takeWhile isDigitC else []
  let r2 := if hadDot then r1.tail.dropWhile isDigitC else r1
  if ip = [] ∧ fp = [] then .nan
  else
    let mant : ℤ := natOfDigits ip * (10 : ℤ) ^ fp.length + natOfDigits fp
    match r2 with
    | [] => .fin (ratScaled (sgn * mant) (-(fp.length : ℤ)))
    | e :: t =>
      if e = 'e' ∨ e = 'E' then
        let sgnE : ℤ := if t.head? == some '-' then -1 else 1
        let t2 := if t.head? == some '+' || t.head? == some '-' then t.tail else t
        let ed := t2.takeWhile isDigitC
        let r3 := t2.dropWhile isDigitC
        if ed = [] ∨ r3 ≠ [] then .nan
        else .fin (ratScaled (sgn * mant) (sgnE * natOfDigits ed - fp.length))
      else .nan

/-- Radix literal tail (`0x…`, `0o…`, `0b…`): all remaining characters must be
digits of the radix, and at least one is required. -/
def parseRadixTail (digOk : Char → Bool) (val : List Char → Nat)
    (cs : List Char) : JsNum :=
  if cs ≠ [] ∧ cs.all digOk then .fin (val cs) else .nan

/-- JavaScript `Number(string)` (ECMA-262 StringToNumber): trim, empty gives
+0, optional sign with decimal/Infinity, unsigned hex/octal/binary literal
forms; anything else is NaN. -/
def jsStrToNum (s : String) : JsNum :=
  let cs := trimL s.data
  match cs with
  | [] => .fin 0
  | '+' :: t => if t = "Infinity".data then .posInf else parseDecTail t 1
  | '-' :: t => if t = "Infinity".data then .negInf else parseDecTail t (-1)
  | '0' :: x :: t =>
    if x = 'x' ∨ x = 'X' then parseRadixTail isHexDigit natOfHexDigits t
    else if x = 'o' ∨ x = 'O' then parseRadixTail isOctDigit natOfOctDigits t
    else if x = 'b' ∨ x = 'B' then parseRadixTail isBinDigit natOfBinDigits t
    else parseDecTail cs 1
  | _ => if cs = "Infinity".data then .posInf else parseDecTail cs 1

/-- ASCII lowering, the fragment of String.prototype.toLowerCase the parser
relies on (`value.toLowerCase()` compared against "true"/"false"). -/
def jsCharLower (c : Char) : Char :=
  if 'A' ≤ c ∧ c ≤ 'Z' then Char.ofNat (c.toNat + 32) else c

def toLowerStr (s : String) : String := ⟨s.data.map jsCharLower⟩

/-- The dynamic value union produced by ConfigParser.parseValue:
boolean, number, string, or list of values. -/
inductive Value where
  | bool : Bool → Value
  | num : ℚ → Value
  | str : String → Value
  | list : List Value → Value

/-- parseValue applied to one comma-split element.  Elements of
`value.split(',')` never contain a comma (lemma `splitCh_no_sep` below), so
the recursive call in the source never takes the list branch; this function
is that recursive call with the (unreachable) list branch specialized away. -/
def parseValueAtom (s : String) : Value :=
  if s = "" then .str ""
  else if toLowerStr s = "true" then .bool true
  else if toLowerStr s = "false" then .bool false
  else
    match jsStrToNum s with
    | .fin q => .num q
    | _ => .str s

/-- ConfigParser.parseValue: empty string stays a string; case-insensitive
true/false become booleans; a finite Number() result becomes a number; a
remaining comma-containing string splits into a list of recursively inferred
elements (each trimmed); anything else stays a string. -/
def parseValue (s : String) : Value :=
  if s = "" then .str ""
  else if toLowerStr s = "true" then .bool true
  else if toLowerStr s = "false" then .bool false
  else
    match jsStrToNum s with
    | .fin q => .num q
    | _ =>
      if s.data.contains ',' then
        .list ((splitCh ',' s.data).map (fun e => parseValueAtom (jsTrim ⟨e⟩)))
      else .str s

/-- A section's accumulated key/value data (a JS object with string keys:
an insertion-ordered association list with unique keys). -/
abbrev Section := List (String × Value)

/-- The parsed document: section name to section data (same JS-object
representation). -/
abbrev KlipperConfig := List (String × Section)

/-- JavaScript object property assignment `m[k] = v` for string keys:
an existing key keeps its position and gets the new value, a new key is
appended. -/
def objSet {α : Type} (m : List (String × α)) (k : String) (v : α) :
    List (String × α) :=
  if m.any (fun p => p.1 == k) then
    m.map (fun p => if p.1 == k then (p.1, v) else p)
  else m ++ [(k, v)]

/-- Canonical array-index property names ("0", "1", …, below 2^32 - 1):
JavaScript orders these numerically before all other own string keys. -/
def isArrayIndexStr (s : String) : Bool :=
  s ≠ "" && s.data.all isDigitC && (s == "0" || s.data.head? != some '0') &&
  natOfDigits s.data < 2 ^ 32 - 1

def insertByNum {α : Type} (p : String × α) :
    List (String × α) → List (String × α)
  | [] => [p]
  | q :: t =>
    if natOfDigits p.1.data ≤ natOfDigits q.1.data then p :: q :: t
    else q :: insertByNum p t

def sortByNum {α : Type} (l : List (String × α)) : List (String × α) :=
  l.foldr insertByNum []

/-- Object.entries / Object.keys enumeration order for a JS object with
string keys: array-index keys in ascending numeric order first, then the
remaining keys in insertion order. -/
def jsObjEntries {α : Type} (m : List (String × α)) : List (String × α) :=
  sortByNum (m.filter (fun p => isArrayIndexStr p.1)) ++
    m.filter (fun p => ¬ isArrayIndexStr p.1)

/-- COMMENT_PATTERN = `/^\s*#/` : optional whitespace then '#'. -/
def commentTest (l : String) : Bool :=
  match l.data.dropWhile isJsWs with
  | '#' :: _ => true
  | _ => false

/-- CONTINUATION_PATTERN = `/\\\s*$/` : the line ends with a backslash
followed only by whitespace. -/
def endsCont (l : String) : Bool :=
  match l.data.reverse.dropWhile isJsWs with
  | '\\' :: _ => true
  | _ => false

/-- `line.replace(/\\\s*$/, '')` : remove the final backslash and the
whitespace after it (whitespace before the backslash is kept). -/
def stripCont (l : String) : String :=
  match l.data.reverse.dropWhile isJsWs with
  | '\\' :: t => ⟨t.reverse⟩
  | _ => l

/-- `line.match(/^\[([^\]]+)\]\s*$/)` : a full-line section header; returns
the (untrimmed) bracket content.  The character class `[^\]]` makes the
capture end at the first ']', and after it only whitespace may remain. -/
def sectionMatch (l : String) : Option String :=
  match l.data with
  | '[' :: rest =>
    let content := rest.takeWhile (fun c => c != ']')
    let r := rest.dropWhile (fun c => c != ']')
    match r with
    | ']' :: after =>
      if content ≠ [] ∧ after.all isJsWs then some ⟨content⟩ else none
    | _ => none
  | _ => none

/-- `line.match(/^([^:=]+)[:=]\s*(.*)$/)` : key up to the first ':' or '=',
then greedy `\s*`, then `(.*)` which cannot cross a line terminator and must
reach the end of the string.  Returns the raw groups (the caller trims). -/
def keyValueMatch (l : String) : Option (String × String) :=
  let pre := l.data.takeWhile (fun c => !(c == ':' || c == '='))
  let rest := l.data.dropWhile (fun c => !(c == ':' || c == '='))
  match rest with
  | [] => none
  | _sep :: after =>
    if pre = [] then none
    else
      let v := after.dropWhile isJsWs
      if v.any isLineTerm then none else some (⟨pre⟩, ⟨v⟩)

/-- The fixed list of recognized multi-word section-name prefixes
(ConfigParser.isValidMultiWordSection). -/
def multiWordPrefixes : List String :=
  ["stepper_", "extruder", "heater_", "fan", "output_pin", "gcode_macro",
   "temperature_sensor", "filament_switch_sensor", "bed_mesh", "safe_z_home",
   "z_tilt", "quad_gantry_level", "screws_tilt_adjust", "bed_screws",
   "display", "menu", "delayed_gcode", "save_variables", "idle_timeout",
   "respond", "pause_resume", "firmware_retraction", "gcode_arcs",
   "exclude_object", "virtual_sdcard", "duplicate_pin_override"]

def isValidMultiWordSection (name : String) : Bool :=
  multiWordPrefixes.any (fun p => p.isPrefixOf name)

/-- ConfigParser.validateSectionName. -/
def validateSectionName (name : String) : Option String :=
  if name = "" ∨ jsTrim name = "" then some "Empty section name"
  else if name.data.contains ' ' ∧ ¬ isValidMultiWordSection name then
    some ("Invalid section name: \"" ++ name ++ "\"")
  else none

/-- The pin-descriptor regex `/^!?[A-Za-z]+\d+$/` : optional '!', one or more
ASCII letters, one or more decimal digits, nothing else. -/
def pinFormatOk (v : String) : Bool :=
  let body :=
    match v.data with
    | '!' :: t => t
    | t => t
  let ls := body.takeWhile isAsciiLetter
  let rest := body.dropWhile isAsciiLetter
  ls ≠ [] && rest ≠ [] && rest.all isDigitC

/-- ConfigParser.validateParameter: the fixed (section, key) rule table.
The numeric branches mirror the source's `isNaN(num) || num <= 0` and
`isNaN(num) || num < 0 || num > 500` tests over the Number() result. -/
def validateParameter (sec key value : String) : Option String :=
  if sec = "stepper_x" ∨ sec = "stepper_y" ∨ sec = "stepper_z" then
    if key = "step_pin" ∨ key = "dir_pin" ∨ key = "enable_pin" then
      if ¬ pinFormatOk value then
        some ("Invalid pin format for " ++ key ++ ": " ++ value)
      else none
    else if key = "rotation_distance" then
      match jsStrToNum value with
      | .nan => some ("Invalid rotation_distance: must be positive number, got " ++ value)
      | .negInf => some ("Invalid rotation_distance: must be positive number, got " ++ value)
      | .posInf => none
      | .fin q =>
        if q ≤ 0 then
          some ("Invalid rotation_distance: must be positive number, got " ++ value)
        else none
    else none
  else if sec = "extruder" then
    if key = "nozzle_diameter" then
      match jsStrToNum value with
      | .nan => some ("Invalid nozzle_diameter: must be positive number, got " ++ value)
      | .negInf => some ("Invalid nozzle_diameter: must be positive number, got " ++ value)
      | .posInf => none
      | .fin q =>
        if q ≤ 0 then
          some ("Invalid nozzle_diameter: must be positive number, got " ++ value)
        else none
    else if key = "max_temp" then
      match jsStrToNum value with
      | .nan => some ("Invalid max_temp: must be between 0-500, got " ++ value)
      | .negInf => some ("Invalid max_temp: must be between 0-500, got " ++ value)
      | .posInf => some ("Invalid max_temp: must be between 0-500, got " ++ value)
      | .fin q =>
        if q < 0 ∨ 500 < q then
          some ("Invalid max_temp: must be between 0-500, got " ++ value)
        else none
    else none
  else none

/-- The scanner state of parseKlipperConfig: the document built so far, the
currently open section name (if any), its accumulating data, and the
diagnostics list. -/
structure PState where
  cfg : KlipperConfig
  curr : Option String
  data : Section
  errs : List String

/-- Committing the currently open section into the document
(`config[currentSection] = { ...currentSectionData }`). -/
def commitCurr (st : PState) : KlipperConfig :=
  match st.curr with
  | some name => objSet st.cfg name st.data
  | none => st.cfg

def lineMsg (n : Nat) (m : String) : String :=
  "Line " ++ toString n ++ ": " ++ m

/-- Processing one (possibly continuation-merged) non-blank non-comment line
at 1-based line number n: section header, out-of-section content, key/value
pair, or invalid syntax — in the source's priority order. -/
def processLine (validate : Bool) (n : Nat) (line : String) (st : PState) :
    PState :=
  match sectionMatch line with
  | some content =>
    let cfg' := commitCurr st
    let name := jsTrim content
    let curr' := if name = "" then none else some name
    let errs' :=
      if validate then
        match curr' with
        | some nm =>
          match validateSectionName nm with
          | some msg => st.errs ++ [lineMsg n msg]
          | none => st.errs
        | none => st.errs
      else st.errs
    ⟨cfg', curr', [], errs'⟩
  | none =>
    match st.curr with
    | none =>
      if validate && jsTrim line != "" then
        { st with errs := st.errs ++
            [lineMsg n ("Configuration outside of section: " ++ jsTrim line)] }
      else st
    | some sec =>
      match keyValueMatch line with
      | some kv =>
        let key := jsTrim kv.1
        let value := jsTrim kv.2
        if key ≠ "" then
          let data' := objSet st.data key (parseValue value)
          let errs' :=
            if validate then
              match validateParameter sec key value with
              | some m => st.errs ++ [lineMsg n m]
              | none => st.errs
            else st.errs
          { st with data := data', errs := errs' }
        else
          if validate then
            { st with errs := st.errs ++
                [lineMsg n ("Invalid key-value pair: " ++ jsTrim line)] }
          else st
      | none =>
        if validate && jsTrim line != "" then
          { st with errs := st.errs ++
              [lineMsg n ("Invalid syntax: " ++ jsTrim line)] }
        else st

/-- The per-line loop of parseKlipperConfig.  A continuation line (ending in
a backslash, with a following line) merges with the trimmed next line and the
next line is consumed: the source blanks it (`lines[lineNumber] = ''`) and the
blanked line is then always skipped by the blank-line check, which this
recursion realizes by consuming it directly (advancing the line counter by
two). -/
def goLines (validate : Bool) : List String → Nat → PState → PState
  | [], _, st => st
  | [l], n, st =>
    if commentTest l || jsTrim l == "" then st
    else processLine validate n l st
  | l :: nxt :: rest', n, st =>
    if commentTest l || jsTrim l == "" then
      goLines validate (nxt :: rest') (n + 1) st
    else if endsCont l then
      goLines validate rest' (n + 2)
        (processLine validate n (stripCont l ++ " " ++ jsTrim nxt) st)
    else
      goLines validate (nxt :: rest') (n + 1) (processLine validate n l st)

/-- ConfigParser.parseKlipperConfig: split on '\n', scan the lines, and
commit a still-open section at end of input.  Returns the document and the
diagnostics. -/
def parseKlipperConfig (content : String) (validate : Bool) :
    KlipperConfig × List String :=
  let lines := jsSplit '\n' content
  let fin := goLines validate lines 1 ⟨[], none, [], []⟩
  (commitCurr fin, fin.errs)

/-- Greedy `\s*$` (multiline) after the closing bracket of an include
directive: consume the longest whitespace prefix that ends at end-of-input or
just before a line terminator; returns the unconsumed remainder, or none if
no line end is reachable through whitespace. -/
def tailConsume (cs : List Char) : Option (List Char) :=
  let run := cs.takeWhile isJsWs
  if run.length = cs.length then some []
  else
    match run.reverse.findIdx? isLineTerm with
    | some i => some (cs.drop (run.length - 1 - i))
    | none => none

/-- The lazy capture `(.+?)\]` followed by `\s*$`: scan forward through
non-line-terminator characters; at the first ']' preceded by a nonempty
capture whose tail matches `\s*$`, succeed; a ']' with a failing tail is
absorbed into the capture. -/
def captureSearch (acc : List Char) : List Char →
    Option (List Char × List Char)
  | [] => none
  | c :: rest =>
    if isLineTerm c then none
    else if c = ']' ∧ acc ≠ [] then
      match tailConsume rest with
      | some rem => some (acc.reverse, rem)
      | none => captureSearch (c :: acc) rest
    else captureSearch (c :: acc) rest

/-- Greedy `\s+` with backtracking: try consuming i whitespace characters for
i from the maximal run length down to 1, running the capture search on each
remainder. -/
def wsLoop (afterInc : List Char) : Nat → Option (List Char × List Char)
  | 0 => none
  | i + 1 =>
    match captureSearch [] (afterInc.drop (i + 1)) with
    | some r => some r
    | none => wsLoop afterInc i

/-- One attempt of INCLUDE_PATTERN = `/^\[include\s+(.+?)\]\s*$/gm` at a
line-start position: returns the captured path characters and the input
remaining after the whole match. -/
def matchInclude (cs : List Char) : Option (List Char × List Char) :=
  if "[include".data.isPrefixOf cs then
    let afterInc := cs.drop 8
    wsLoop afterInc (afterInc.takeWhile isJsWs).length
  else none

/-- The global scan of extractIncludes: at every line-start position attempt
the include pattern; on a match, record the trimmed path (if nonempty) and
drop the matched span from the output; otherwise copy the character.  Fuel is
the input length (each step consumes at least one character, so it never runs
out; the fuel-exhausted branch copies the rest unchanged). -/
def scanInc : Nat → List Char → Bool → List String → List Char →
    List String × List Char
  | _, [], _, ai, ac => (ai.reverse, ac.reverse)
  | 0, cs, _, ai, ac => (ai.reverse, ac.reverse ++ cs)
  | f + 1, c :: rest, ls, ai, ac =>
    if ls then
      match matchInclude (c :: rest) with
      | some capRem =>
        let p := jsTrim ⟨capRem.1⟩
        scanInc f capRem.2 false (if p = "" then ai else p :: ai) ac
      | none => scanInc f rest (isLineTerm c) ai (c :: ac)
    else scanInc f rest (isLineTerm c) ai (c :: ac)

/-- ConfigParser.extractIncludes: collect the include paths (in match order)
and return them with the content after `content.replace(INCLUDE_PATTERN, '')`. -/
def extractIncludes (content : String) : List String × String :=
  let r := scanInc content.data.length content.data true [] []
  (r.1, ⟨r.2⟩)

/-- The result of ConfigParser.parseConfig. -/
structure ConfigParseResult where
  config : KlipperConfig
  includes : List String
  errors : List String

/-- ConfigParser.parseConfig: extract includes, then parse the cleaned
content.  (The source's catch-all unexpected-failure branch is unreachable in
this total model.) -/
def parseConfig (content : String) (validate : Bool) : ConfigParseResult :=
  let inc := extractIncludes content
  let pk := parseKlipperConfig inc.2 validate
  ⟨pk.1, inc.1, pk.2⟩

/-- JavaScript default ToString for a value inside Array.prototype.join:
nested arrays join their elements with "," (no space).  Number printing is
modelled as exact decimal rendering (the source prints the shortest
round-trip decimal of the IEEE double; on the exact rationals produced by
parsing short literals these coincide). -/
def ratDecimalString (q : ℚ) : String :=
  let sign := if q < 0 then "-" else ""
  let n := q.num.natAbs
  let d := q.den
  if d = 1 then sign ++ toString n
  else
    -- d = 2^a * 5^b for every non-integer rational a parsed decimal literal
    -- can produce; k is the number of fractional digits.
    let k := (List.range 400).findIdx (fun i => (10 ^ i) % d == 0)
    let scaled := n * 10 ^ k / d
    let digits := toString scaled
    let digits := (List.replicate (k + 1 - digits.length) '0').asString ++ digits
    let cut := digits.length - k
    sign ++ ⟨digits.data.take cut⟩ ++ "." ++ ⟨digits.data.drop cut⟩

mutual
/-- Element stringification inside Array.prototype.join. -/
def valueElemStr : Value → String
  | .bool true => "true"
  | .bool false => "false"
  | .num q => ratDecimalString q
  | .str s => s
  | .list l => valueListStr l

def valueListStr : List Value → String
  | [] => ""
  | [v] => valueElemStr v
  | v :: r => valueElemStr v ++ "," ++ valueListStr r
end

/-- `Array.isArray(value) ? value.join(', ') : value` interpolation used by
formatConfig for one stored value. -/
def formatValue : Value → String
  | .list l => String.intercalate ", " (l.map valueElemStr)
  | v => valueElemStr v

/-- ConfigParser.formatConfig: include directives, a blank separator when any
are present, then each section with its key/value lines, each section
followed by a blank line; the whole output trimmed. -/
def formatConfig (config : KlipperConfig) (includes : List String) : String :=
  let incPart := String.join (includes.map (fun i => "[include " ++ i ++ "]\n"))
  let incPart := if includes.length > 0 then incPart ++ "\n" else incPart
  let body := String.join ((jsObjEntries config).map (fun sec =>
    "[" ++ sec.1 ++ "]\n" ++
    String.join ((jsObjEntries sec.2).map (fun kv =>
      kv.1 ++ ": " ++ formatValue kv.2 ++ "\n")) ++ "\n"))
  jsTrim (incPart ++ body)

/-! ## Spec-level reference definitions -/

/-- Constructor tag of a Value (used to state that two values differ in
kind). -/
def Value.tag : Value → Nat
  | .bool _ => 0
  | .num _ => 1
  | .str _ => 2
  | .list _ => 3

/-- Modelled from the spec's words for claim C3: a string that "wholly
parses as a finite decimal number" — an optional sign followed by a decimal
literal (digits, optional point and fraction digits, optional exponent),
consuming the whole (trimmed) string.  Hex/octal/binary forms are not
decimal. -/
def specDecimalNum (s : String) : Option ℚ :=
  let r :=
    match trimL s.data with
    | '+' :: t => parseDecTail t 1
    | '-' :: t => parseDecTail t (-1)
    | cs => parseDecTail cs 1
  match r with
  | .fin q => some q
  | _ => none

/-- "Is a strictly positive number" over a Number() result (claim C7):
+Infinity counts as strictly positive, NaN is not a number. -/
def JsNum.isStrictlyPos : JsNum → Prop
  | .posInf => True
  | .fin q => 0 < q
  | _ => False

instance : DecidablePred JsNum.isStrictlyPos := fun n => by
  cases n <;> simp [JsNum.isStrictlyPos] <;> infer_instance

/-- "Is a number in [0, 500] inclusive" over a Number() result (claim C7). -/
def JsNum.inRange0to500 : JsNum → Prop
  | .fin q => 0 ≤ q ∧ q ≤ 500
  | _ => False

instance : DecidablePred JsNum.inRange0to500 := fun n => by
  cases n <;> simp [JsNum.inRange0to500] <;> infer_instance

/-- The spec-side enumeration of the parameter rule table (claim C7): a
diagnostic is due exactly when the (section, key) pair is in the table and
the raw value violates the associated rule. -/
def specParamViolation (sec key value : String) : Prop :=
  ((sec = "stepper_x" ∨ sec = "stepper_y" ∨ sec = "stepper_z") ∧
     (key = "step_pin" ∨ key = "dir_pin" ∨ key = "enable_pin") ∧
     ¬ pinFormatOk value = true) ∨
  ((sec = "stepper_x" ∨ sec = "stepper_y" ∨ sec = "stepper_z") ∧
     key = "rotation_distance" ∧ ¬ (jsStrToNum value).isStrictlyPos) ∨
  (sec = "extruder" ∧ key = "nozzle_diameter" ∧
     ¬ (jsStrToNum value).isStrictlyPos) ∨
  (sec = "extruder" ∧ key = "max_temp" ∧ ¬ (jsStrToNum value).inRange0to500)

/-- The observable core of the scanner state: document, open section name,
and its data — everything except the diagnostics. -/
def coreSt (st : PState) : KlipperConfig × Option String × Section :=
  (st.cfg, st.curr, st.data)

/-- The scanner-state invariant behind claim C9: no committed section key is
empty, and the open section name (if any) is nonempty. -/
def noEmptyKey (st : PState) : Prop :=
  (∀ a ∈ st.cfg.map Prod.fst, a ≠ "") ∧ st.curr ≠ some ""

/-- The invariant that from the current scan position (with the given
line-start flag) onward, no line-start position carries an `[include`
prefix — under it the include scan copies its input verbatim. -/
def noIncludeStart : List Char → Bool → Prop
  | [], _ => True
  | c :: rest, ls =>
    (ls = true → "[include".data.isPrefixOf (c :: rest) = false) ∧
    noIncludeStart rest (isLineTerm c)

/-- The last value stored under a key in a chronological commit list
(default d when the key never occurs). -/
def lastVal (key : String) (l : List (String × Section)) (d : Section) :
    Section :=
  l.foldl (fun acc q => if q.1 == key then q.2 else acc) d

/-- The distinct keys of a commit list in order of first appearance. -/
def keysInOrder : List (String × Section) → List String
  | [] => []
  | (k, _) :: t => k :: (keysInOrder t).filter (fun a => !(a == k))

/-- Modelled from the spec's words for claim C1: the document obtained from
a chronological commit sequence by keeping each distinct name once, in order
of first appearance, mapped to the data of its last occurrence. -/
def specFOLV (l : List (String × Section)) : List (String × Section) :=
  (keysInOrder l).map (fun k => (k, lastVal k l []))

/-- The commits (section name, accumulated data) a single processed line
produces, together with the updated (open section, data) state — the
commit-level shadow of processLine (commits do not depend on the validation
flag). -/
def commitsProcess (line : String) (cur : Option String × Section) :
    (Option String × Section) × List (String × Section) :=
  match sectionMatch line with
  | some content =>
    let out : List (String × Section) :=
      match cur.1 with
      | some name => [(name, cur.2)]
      | none => []
    let name := jsTrim content
    ((if name = "" then none else some name, []), out)
  | none =>
    match cur.1 with
    | none => (cur, [])
    | some _ =>
      match keyValueMatch line with
      | some kv =>
        let key := jsTrim kv.1
        if key ≠ "" then
          ((cur.1, objSet cur.2 key (parseValue (jsTrim kv.2))), [])
        else (cur, [])
      | none => (cur, [])

/-- The final commit of a still-open section at end of input. -/
def finalCommitC : Option String × Section → List (String × Section)
  | (some name, d) => [(name, d)]
  | (none, _) => []

/-- The chronological commit sequence of the line scan (the commit-level
shadow of goLines). -/
def goCommitsLines : List String → Nat → Option String × Section →
    List (String × Section)
  | [], _, cur => finalCommitC cur
  | [l], _, cur =>
    if commentTest l || jsTrim l == "" then finalCommitC cur
    else (commitsProcess l cur).2 ++ finalCommitC (commitsProcess l cur).1
  | l :: nxt :: rest, n, cur =>
    if commentTest l || jsTrim l == "" then
      goCommitsLines (nxt :: rest) (n + 1) cur
    else if endsCont l then
      (commitsProcess (stripCont l ++ " " ++ jsTrim nxt) cur).2 ++
        goCommitsLines rest (n + 2)
          (commitsProcess (stripCont l ++ " " ++ jsTrim nxt) cur).1
    else
      (commitsProcess l cur).2 ++
        goCommitsLines (nxt :: rest) (n + 1) (commitsProcess l cur).1

/-- The chronological sequence of section commits parseConfig performs on an
input: one commit per header occurrence that gets closed, plus the final
commit. -/
def parseCommits (content : String) : List (String × Section) :=
  goCommitsLines (jsSplit '\n' (extractIncludes content).2) 1 (none, [])

/-- The character stream of a line list as joined by newlines (the inverse
of splitting on a newline that occurs in no line). -/
def linesChars : List String → List Char
  | [] => []
  | [l] => l.data
  | l :: l2 :: rest => l.data ++ '\n' :: linesChars (l2 :: rest)

/-- The include path a single line contributes: the trimmed capture of the
include pattern matched against the line alone, skipped when empty. -/
def incPath (l : String) : Option String :=
  match matchInclude l.data with
  | some capRem =>
    if jsTrim ⟨capRem.1⟩ = "" then none else some (jsTrim ⟨capRem.1⟩)
  | none => none

/-- The include paths of a line list, in order of appearance. -/
def incsOf (L : List String) : List String := L.filterMap incPath

/-- The line list with every include-matching line replaced by an empty
line. -/
def blankIncs (L : List String) : List String :=
  L.map (fun l => if (matchInclude l.data).isSome then "" else l)

/-- A well-behaved physical line: free of line terminators, and if it starts
with `[include`, some later character is non-whitespace (so the pattern's
`\s+` cannot run past the end of the line). -/
def lineOk (l : String) : Prop :=
  (∀ c ∈ l.data, isLineTerm c = false) ∧
  ("[include".data.isPrefixOf l.data = true →
    (l.data.drop 8).any (fun c => !isJsWs c) = true)

/-- A well-behaved line list: every line is well behaved, and a line on which
the include pattern matches is followed by a line with a non-whitespace
character (so the pattern's trailing `\s*$` stops at the first newline and
cannot absorb following blank lines). -/
def goodLines : List String → Prop
  | [] => True
  | [l] => lineOk l
  | l :: l2 :: rest =>
    lineOk l ∧
    ((matchInclude l.data).isSome = true →
      l2.data.any (fun c => !isJsWs c) = true) ∧
    goodLines (l2 :: rest)

instance lineOkDec (l : String) : Decidable (lineOk l) := by
  unfold lineOk
  exact inferInstance

def goodLinesDec : ∀ (L : List String), Decidable (goodLines L)
  | [] => by
    unfold goodLines
    exact inferInstance
  | [l] => by
    unfold goodLines
    exact inferInstance
  | l :: l2 :: rest => by
    unfold goodLines
    have := goodLinesDec (l2 :: rest)
    exact inferInstance

instance goodLinesDecInst (L : List String) : Decidable (goodLines L) :=
  goodLinesDec L

/-! ## Helper lemmas -/

/-- processLine changes the document/current-section/data independently of
the validation flag and of the diagnostics accumulated so far. -/
theorem processLine_core (v v' : Bool) (n : Nat) (l : String)
    (st st' : PState) (h : coreSt st = coreSt st') :
    coreSt (processLine v n l st) = coreSt (processLine v' n l st') := by
  obtain ⟨c, cu, d, e⟩ := st
  obtain ⟨c', cu', d', e'⟩ := st'
  simp only [coreSt, Prod.mk.injEq] at h
  obtain ⟨h1, h2, h3⟩ := h
  subst h1; subst h2; subst h3
  unfold processLine
  dsimp only
  split
  · simp [coreSt, commitCurr]
  · split
    · split_ifs <;> rfl
    · split
      · split_ifs <;> rfl
      · split_ifs <;> rfl

/-- The whole line scan: the state core is independent of the validation
flag and of the diagnostics list. -/
theorem goLines_core (v v' : Bool) :
    ∀ (lines : List String) (n : Nat) (st st' : PState),
      coreSt st = coreSt st' →
      coreSt (goLines v lines n st) = coreSt (goLines v' lines n st')
  | [], _, st, st', h => h
  | [l], n, st, st', h => by
    unfold goLines
    split
    · exact h
    · exact processLine_core v v' n l st st' h
  | l :: nxt :: rest, n, st, st', h => by
    unfold goLines
    split
    · exact goLines_core v v' (nxt :: rest) (n + 1) st st' h
    · split
      · exact goLines_core v v' rest (n + 2) _ _
          (processLine_core v v' n _ st st' h)
      · exact goLines_core v v' (nxt :: rest) (n + 1) _ _
          (processLine_core v v' n l st st' h)

/-- Committing the open section only looks at the state core. -/
theorem commitCurr_core (st st' : PState) (h : coreSt st = coreSt st') :
    commitCurr st = commitCurr st' := by
  obtain ⟨c, cu, d, e⟩ := st
  obtain ⟨c', cu', d', e'⟩ := st'
  simp only [coreSt, Prod.mk.injEq] at h
  obtain ⟨h1, h2, h3⟩ := h
  subst h1; subst h2; subst h3
  rfl

/-- Keys of a JS object after an assignment: unchanged when the key was
present, the key appended when it was not. -/
theorem objSet_keys {α : Type} (m : List (String × α)) (k : String) (v : α) :
    (objSet m k v).map Prod.fst = m.map Prod.fst ∨
    (objSet m k v).map Prod.fst = m.map Prod.fst ++ [k] := by
  unfold objSet
  split
  · left
    rw [List.map_map]
    apply List.map_congr_left
    intro p _
    by_cases h : p.1 == k <;> simp [h, Function.comp]
  · right
    simp

theorem commitCurr_no_empty (st : PState) (h : noEmptyKey st) :
    ∀ a ∈ (commitCurr st).map Prod.fst, a ≠ "" := by
  obtain ⟨hc, hu⟩ := h
  unfold commitCurr
  split
  · next name heq =>
    intro a ha
    rcases objSet_keys st.cfg name st.data with hk | hk
    · exact hc a (hk ▸ ha)
    · rw [hk] at ha
      rcases List.mem_append.mp ha with h1 | h1
      · exact hc a h1
      · rcases List.mem_singleton.mp h1 with rfl
        intro hcon
        exact hu (by rw [heq, hcon])
  · exact hc

theorem processLine_no_empty (v : Bool) (n : Nat) (l : String) (st : PState)
    (h : noEmptyKey st) : noEmptyKey (processLine v n l st) := by
  obtain ⟨hc, hu⟩ := h
  unfold processLine
  split
  · next content heq =>
    refine ⟨commitCurr_no_empty st ⟨hc, hu⟩, ?_⟩
    dsimp only
    by_cases hname : jsTrim content = "" <;> simp [hname]
  · split
    · split_ifs <;> exact ⟨hc, hu⟩
    · split
      · dsimp only
        split_ifs <;> exact ⟨hc, hu⟩
      · split_ifs <;> exact ⟨hc, hu⟩

theorem goLines_no_empty (v : Bool) :
    ∀ (lines : List String) (n : Nat) (st : PState),
      noEmptyKey st → noEmptyKey (goLines v lines n st)
  | [], _, _, h => h
  | [l], n, st, h => by
    unfold goLines
    split
    · exact h
    · exact processLine_no_empty v n l st h
  | l :: nxt :: rest, n, st, h => by
    unfold goLines
    split
    · exact goLines_no_empty v (nxt :: rest) (n + 1) st h
    · split
      · exact goLines_no_empty v rest (n + 2) _
          (processLine_no_empty v n _ st h)
      · exact goLines_no_empty v (nxt :: rest) (n + 1) _
          (processLine_no_empty v n l st h)

/-- With validation off, processLine never touches the diagnostics list. -/
theorem processLine_errs_false (n : Nat) (l : String) (st : PState) :
    (processLine false n l st).errs = st.errs := by
  unfold processLine
  split
  · rfl
  · split
    · split_ifs <;> first | rfl | (rename_i hh; simp at hh)
    · split
      · dsimp only
        split_ifs <;> first | rfl | (rename_i hh; simp at hh)
      · split_ifs <;> first | rfl | (rename_i hh; simp at hh)

/-- With validation off, the whole scan never touches the diagnostics
list. -/
theorem goLines_errs_false :
    ∀ (lines : List String) (n : Nat) (st : PState),
      (goLines false lines n st).errs = st.errs
  | [], _, _ => rfl
  | [l], n, st => by
    unfold goLines
    split
    · rfl
    · exact processLine_errs_false n l st
  | l :: nxt :: rest, n, st => by
    unfold goLines
    split
    · exact goLines_errs_false (nxt :: rest) (n + 1) st
    · split
      · exact (goLines_errs_false rest (n + 2) _).trans
          (processLine_errs_false n _ st)
      · exact (goLines_errs_false (nxt :: rest) (n + 1) _).trans
          (processLine_errs_false n l st)

/-! ## The claims -/

/-- C2: for every input string, parseConfig with validation enabled and
disabled return the same document and the same include list; the flag only
determines whether diagnostics are produced (with validation off the
diagnostics list is empty). -/
theorem c2_validation_flag_noninterference (content : String) :
    (parseConfig content true).config = (parseConfig content false).config ∧
    (parseConfig content true).includes = (parseConfig content false).includes ∧
    (parseConfig content false).errors = [] := by
  refine ⟨?_, rfl, ?_⟩
  · have h := goLines_core true false
      (jsSplit '\n' (extractIncludes content).2) 1 ⟨[], none, [], []⟩
      ⟨[], none, [], []⟩ rfl
    have e1 : (parseConfig content true).config
        = commitCurr (goLines true
            (jsSplit '\n' (extractIncludes content).2) 1 ⟨[], none, [], []⟩) := rfl
    have e2 : (parseConfig content false).config
        = commitCurr (goLines false
            (jsSplit '\n' (extractIncludes content).2) 1 ⟨[], none, [], []⟩) := rfl
    rw [e1, e2]
    exact commitCurr_core _ _ h
  · exact goLines_errs_false (jsSplit '\n' (extractIncludes content).2) 1
      ⟨[], none, [], []⟩

/-- C9: for every input and either validation mode, the returned document
never contains a section keyed by the empty string. -/
theorem c9_no_empty_section_name (content : String) (validate : Bool) :
    "" ∉ (parseConfig content validate).config.map Prod.fst := by
  intro hmem
  have e : (parseConfig content validate).config
      = commitCurr (goLines validate
          (jsSplit '\n' (extractIncludes content).2) 1 ⟨[], none, [], []⟩) := rfl
  rw [e] at hmem
  have h := goLines_no_empty validate
    (jsSplit '\n' (extractIncludes content).2) 1 ⟨[], none, [], []⟩
    ⟨by simp, by simp⟩
  exact commitCurr_no_empty _ h "" hmem rfl

/-- C1 counterexample: with duplicate section headers `[a] [b] [a]`, the
claim predicts the sections in order of each name's last header occurrence
(["b", "a"]); the code keeps the position of the first occurrence (JS object
re-assignment does not move a key), producing ["a", "b"] — while the data is
indeed that of the last occurrence (z: 3). -/
theorem c1_section_order_counterexample :
    (parseConfig "[a]\nx: 1\n[b]\ny: 2\n[a]\nz: 3" true).config
      = [("a", [("z", Value.num 3)]), ("b", [("y", Value.num 2)])] ∧
    (jsObjEntries
        (parseConfig "[a]\nx: 1\n[b]\ny: 2\n[a]\nz: 3" true).config).map
        Prod.fst ≠ ["b", "a"] :=
  ⟨rfl, by decide⟩

/-- C3 counterexample: "0x10" does not wholly parse as a finite decimal
number (hex is not decimal notation), it is not a boolean and contains no
comma, so the claim makes it stay the string "0x10"; the code's Number()
accepts the hex literal and infers the number 16. -/
theorem c3_hex_counterexample :
    parseValue "0x10" = Value.num 16 ∧ specDecimalNum "0x10" = none ∧
    parseValue "0x10" ≠ Value.str "0x10" :=
  ⟨rfl, rfl, fun h => absurd (congrArg Value.tag h) (by decide)⟩

/-- C4 counterexample: on the two-line input `speed: 10 \` / `more` the
stored value is "10  more" with two internal spaces (the space before the
stripped backslash is kept and a separator space is added), not "10 more"
with exactly one. -/
theorem c4_two_spaces_counterexample :
    parseConfig "[s]\nspeed: 10 \\\nmore" true
      = ⟨[("s", [("speed", Value.str "10  more")])], [], []⟩ ∧
    ("10  more" : String) ≠ "10 more" :=
  ⟨rfl, by decide⟩

/-- C5: round-trip failure (code bug).  The input `[ include f]` parses to a
document with the single section "include f" (the include pattern requires
`[include` with no space, but the section header content is trimmed);
serializing that document prints `[include f]`, which on re-parsing is
extracted as an include directive: the section is lost and a spurious
include "f" appears, so the round-tripped document is not equal in
section/key/value content to the original. -/
theorem c5_roundtrip_failure :
    (parseConfig "[ include f]" true).config = [("include f", [])] ∧
    formatConfig [("include f", [])] [] = "[include f]" ∧
    parseConfig "[include f]" true
      = ⟨[], ["f"], []⟩ :=
  ⟨rfl, rfl, rfl⟩

/-- C6 counterexample: `\s` in the include pattern matches line terminators,
so the single directive can span two physical lines: on input
`[include\nfoo.cfg]` the path "foo.cfg" is extracted and the whole two-line
span removed, though neither physical line is by itself of the form
`[include <path>]`. -/
theorem c6_multiline_counterexample :
    extractIncludes "[include\nfoo.cfg]" = (["foo.cfg"], "") ∧
    (["foo.cfg"] : List String) ≠ [] :=
  ⟨rfl, by decide⟩

/-- C8 counterexample: removal of an include line can consume the newline of
a following blank line (the trailing `\s*$` of the pattern), shifting
subsequent lines: on input `[include f.cfg]\n\nx: 1` the line `x: 1` is
physical line 3 of the original input, but its diagnostic is tagged
"Line 2". -/
theorem c8_line_shift_counterexample :
    parseConfig "[include f.cfg]\n\nx: 1" true
      = ⟨[], ["f.cfg"], ["Line 2: Configuration outside of section: x: 1"]⟩ ∧
    "Line 3: Configuration outside of section: x: 1" ∉
      (parseConfig "[include f.cfg]\n\nx: 1" true).errors :=
  ⟨rfl, by decide⟩

theorem stepper_ne_extruder (s : String)
    (h : s = "stepper_x" ∨ s = "stepper_y" ∨ s = "stepper_z") :
    s ≠ "extruder" := by
  rcases h with rfl | rfl | rfl <;> decide

theorem pinkey_ne_rot (k : String)
    (h : k = "step_pin" ∨ k = "dir_pin" ∨ k = "enable_pin") :
    k ≠ "rotation_distance" := by
  rcases h with rfl | rfl | rfl <;> decide

theorem isSome_ite_some {c : Prop} [Decidable c] (m : String) :
    ((if c then some m else none).isSome = true) ↔ c := by
  split_ifs with h <;> simp [h]

/-- C7: with validation enabled, a stored key/value pair draws a parameter
diagnostic exactly when its (section, key) pair is in the fixed rule table
and the raw value violates the rule — pins on stepper_x/y/z must match
optional `!` then letters then digits, rotation_distance there and
nozzle_diameter on extruder must be strictly positive numbers, max_temp on
extruder must be a number in [0, 500]; every other pair never produces a
diagnostic.  A failing check still stores the value (concrete conjunct: the
failing pin value 123 is stored while its diagnostic is emitted). -/
theorem c7_parameter_validation_rule_table :
    (∀ sec key value : String,
      (validateParameter sec key value).isSome ↔
        specParamViolation sec key value) ∧
    parseConfig "[stepper_x]\nstep_pin: 123" true
      = ⟨[("stepper_x", [("step_pin", Value.num 123)])], [],
         ["Line 2: Invalid pin format for step_pin: 123"]⟩ := by
  refine ⟨fun sec key value => ?_, rfl⟩
  unfold validateParameter specParamViolation
  by_cases hs : sec = "stepper_x" ∨ sec = "stepper_y" ∨ sec = "stepper_z"
  · rw [if_pos hs]
    have hse := stepper_ne_extruder sec hs
    by_cases hk : key = "step_pin" ∨ key = "dir_pin" ∨ key = "enable_pin"
    · rw [if_pos hk]
      have hne := pinkey_ne_rot key hk
      simp [isSome_ite_some, hs, hk, hne, hse]
    · rw [if_neg hk]
      by_cases hr : key = "rotation_distance"
      · rw [if_pos hr]
        rcases hnv : jsStrToNum value with _ | _ | _ | q
        · simp [hnv, JsNum.isStrictlyPos, hs, hk, hr, hse]
        · simp [hnv, JsNum.isStrictlyPos, hs, hk, hr, hse]
        · simp [hnv, JsNum.isStrictlyPos, hs, hk, hr, hse]
        · simp only [hnv, isSome_ite_some, JsNum.isStrictlyPos]
          simp [hs, hk, hr, hse, not_lt]
      · rw [if_neg hr]
        simp [hk, hr, hse]
  · rw [if_neg hs]
    by_cases he : sec = "extruder"
    · rw [if_pos he]
      by_cases hn : key = "nozzle_diameter"
      · rw [if_pos hn]
        have hnm : key ≠ "max_temp" := by rw [hn]; decide
        rcases hnv : jsStrToNum value with _ | _ | _ | q
        · simp [hnv, JsNum.isStrictlyPos, hs, he, hn, hnm]
        · simp [hnv, JsNum.isStrictlyPos, hs, he, hn, hnm]
        · simp [hnv, JsNum.isStrictlyPos, hs, he, hn, hnm]
        · simp only [hnv, isSome_ite_some, JsNum.isStrictlyPos]
          simp [hs, he, hn, hnm, not_lt]
      · rw [if_neg hn]
        by_cases hm : key = "max_temp"
        · rw [if_pos hm]
          rcases hnv : jsStrToNum value with _ | _ | _ | q
          · simp [hnv, JsNum.inRange0to500, hs, he, hn, hm]
          · simp [hnv, JsNum.inRange0to500, hs, he, hn, hm]
          · simp [hnv, JsNum.inRange0to500, hs, he, hn, hm]
          · simp only [hnv, isSome_ite_some, JsNum.inRange0to500]
            simp [hs, he, hn, hm, not_and_or, not_le]
            constructor
            · rintro (h | h) h0
              · exact absurd h0 (not_le.mpr h)
              · exact h
            · intro h
              rcases lt_or_ge q 0 with h0 | h0
              · exact Or.inl h0
              · exact Or.inr (h h0)
        · rw [if_neg hm]
          simp [hn, hm, hs, he]
    · rw [if_neg he]
      simp [hs, he]

theorem parseDecTail_nan_of_head (c : Char) (rest : List Char) (sgn : ℤ)
    (hd : isDigitC c = false) (hdot : c ≠ '.') :
    parseDecTail (c :: rest) sgn = .nan := by
  simp [parseDecTail, hd, hdot]

theorem jsStrToNum_nan_of_head (s : String) (c : Char) (rest : List Char)
    (ht : trimL s.data = c :: rest)
    (hd : isDigitC c = false) (hp : c ≠ '+') (hm : c ≠ '-')
    (hdot : c ≠ '.') (hI : c ≠ 'I') :
    jsStrToNum s = .nan := by
  unfold jsStrToNum
  rw [ht]
  dsimp only
  split
  · next heq => exact absurd heq (by simp)
  · next t heq =>
    injection heq with h1 h2
    exact absurd h1 hp
  · next t heq =>
    injection heq with h1 h2
    exact absurd h1 hm
  · next x t heq =>
    injection heq with h1 h2
    subst h1
    exact absurd hd (by decide)
  · split_ifs with hinf
    · injection hinf with h1 h2
      exact absurd h1 hI
    · exact parseDecTail_nan_of_head c rest 1 hd hdot

theorem lower_t_facts (c : Char) (h : jsCharLower c = 't') :
    isDigitC c = false ∧ c ≠ '+' ∧ c ≠ '-' ∧ c ≠ '.' ∧ c ≠ 'I' := by
  unfold jsCharLower at h
  split_ifs at h with hr
  · obtain ⟨h1, h2⟩ := hr
    refine ⟨?_, ?_, ?_, ?_, ?_⟩
    · by_contra hdig
      rw [Bool.not_eq_false] at hdig
      unfold isDigitC at hdig
      rw [Bool.and_eq_true, decide_eq_true_eq, decide_eq_true_eq] at hdig
      exact absurd (le_trans h1 hdig.2) (by decide)
    · rintro rfl; exact absurd h1 (by decide)
    · rintro rfl; exact absurd h1 (by decide)
    · rintro rfl; exact absurd h1 (by decide)
    · rintro rfl; exact absurd h (by decide)
  · subst h
    exact ⟨by decide, by decide, by decide, by decide, by decide⟩

theorem lower_f_facts (c : Char) (h : jsCharLower c = 'f') :
    isDigitC c = false ∧ c ≠ '+' ∧ c ≠ '-' ∧ c ≠ '.' ∧ c ≠ 'I' := by
  unfold jsCharLower at h
  split_ifs at h with hr
  · obtain ⟨h1, h2⟩ := hr
    refine ⟨?_, ?_, ?_, ?_, ?_⟩
    · by_contra hdig
      rw [Bool.not_eq_false] at hdig
      unfold isDigitC at hdig
      rw [Bool.and_eq_true, decide_eq_true_eq, decide_eq_true_eq] at hdig
      exact absurd (le_trans h1 hdig.2) (by decide)
    · rintro rfl; exact absurd h1 (by decide)
    · rintro rfl; exact absurd h1 (by decide)
    · rintro rfl; exact absurd h1 (by decide)
    · rintro rfl; exact absurd h (by decide)
  · subst h
    exact ⟨by decide, by decide, by decide, by decide, by decide⟩

theorem lowerTrue_nan (s : String) (ht : trimL s.data = s.data)
    (h : toLowerStr s = "true") : jsStrToNum s = .nan := by
  have hm : s.data.map jsCharLower = "true".data := congrArg String.data h
  rcases hd : s.data with _ | ⟨c0, rest⟩
  · rw [hd] at hm; simp at hm
  · rw [hd, List.map_cons] at hm
    injection hm with h0 h1
    obtain ⟨f1, f2, f3, f4, f5⟩ := lower_t_facts c0 h0
    exact jsStrToNum_nan_of_head s c0 rest (by rw [ht, hd]) f1 f2 f3 f4 f5

theorem lowerFalse_nan (s : String) (ht : trimL s.data = s.data)
    (h : toLowerStr s = "false") : jsStrToNum s = .nan := by
  have hm : s.data.map jsCharLower = "false".data := congrArg String.data h
  rcases hd : s.data with _ | ⟨c0, rest⟩
  · rw [hd] at hm; simp at hm
  · rw [hd, List.map_cons] at hm
    injection hm with h0 h1
    obtain ⟨f1, f2, f3, f4, f5⟩ := lower_f_facts c0 h0
    exact jsStrToNum_nan_of_head s c0 rest (by rw [ht, hd]) f1 f2 f3 f4 f5

theorem contains_comma_iff (l : List Char) : l.contains ',' = true ↔ ',' ∈ l := by
  simp [List.contains, List.elem_iff]

/-- C3 (amended): on a trimmed value string, inference yields a boolean
exactly for case-insensitive "true"/"false"; a number exactly when the
string is nonempty and JavaScript numeric conversion yields a finite value
(decimal literals with optional sign and exponent, and unsigned
hex/octal/binary literal forms — not only decimal notation, which is the
amendment); an ordered list of recursively inferred trimmed elements exactly
when the string contains a comma and is neither boolean nor number; and
otherwise the string itself, including the empty string. -/
theorem c3_value_inference_amended (s : String) (htr : jsTrim s = s) :
    ((∃ b, parseValue s = .bool b) ↔
        (toLowerStr s = "true" ∨ toLowerStr s = "false")) ∧
    ((∃ q, parseValue s = .num q) ↔
        (s ≠ "" ∧ ∃ q, jsStrToNum s = .fin q)) ∧
    ((∃ l, parseValue s = .list l) ↔
        (s.data.contains ',' = true ∧
         ¬ (toLowerStr s = "true" ∨ toLowerStr s = "false") ∧
         ¬ (s ≠ "" ∧ ∃ q, jsStrToNum s = .fin q))) ∧
    (∀ l, parseValue s = .list l →
        l = (splitCh ',' s.data).map (fun e => parseValueAtom (jsTrim ⟨e⟩))) ∧
    (parseValue s = .str s ↔
        (s = "" ∨ (¬ (toLowerStr s = "true" ∨ toLowerStr s = "false") ∧
          ¬ (s ≠ "" ∧ ∃ q, jsStrToNum s = .fin q) ∧
          s.data.contains ',' = false))) := by
  have ht : trimL s.data = s.data := congrArg String.data htr
  by_cases he : s = ""
  · subst he
    have hpv : parseValue "" = Value.str "" := rfl
    refine ⟨?_, ?_, ?_, ?_, ?_⟩
    · exact ⟨fun ⟨b, hb⟩ => by rw [hpv] at hb; exact Value.noConfusion hb,
        fun h => by rcases h with h | h <;> exact absurd h (by decide)⟩
    · exact ⟨fun ⟨q, hq⟩ => by rw [hpv] at hq; exact Value.noConfusion hq,
        fun ⟨hne, _⟩ => absurd rfl hne⟩
    · exact ⟨fun ⟨l, hl⟩ => by rw [hpv] at hl; exact Value.noConfusion hl,
        fun ⟨hco, _⟩ => absurd hco (by decide)⟩
    · exact fun l hl => by rw [hpv] at hl; exact Value.noConfusion hl
    · exact ⟨fun _ => Or.inl rfl, fun _ => hpv⟩
  · unfold parseValue
    rw [if_neg he]
    by_cases hT : toLowerStr s = "true"
    · rw [if_pos hT]
      have hnan := lowerTrue_nan s ht hT
      refine ⟨?_, ?_, ?_, ?_, ?_⟩
      · simp [hT]
      · simp [hnan]
      · simp [hT]
      · intro l hl; exact absurd hl (by simp)
      · simp [hT, he]
    · rw [if_neg hT]
      by_cases hF : toLowerStr s = "false"
      · rw [if_pos hF]
        have hnan := lowerFalse_nan s ht hF
        refine ⟨?_, ?_, ?_, ?_, ?_⟩
        · simp [hF]
        · simp [hnan]
        · simp [hF]
        · intro l hl; exact absurd hl (by simp)
        · simp [hF, he]
      · rw [if_neg hF]
        rcases hj : jsStrToNum s with _ | _ | _ | q
        · simp only [hj]
          by_cases hc : s.data.contains ',' = true
          · rw [if_pos hc]
            have hc' : ',' ∈ s.data := (contains_comma_iff s.data).mp hc
            refine ⟨?_, ?_, ?_, ?_, ?_⟩
            · simp [hT, hF]
            · simp [hj, he]
            · simp [hc', hT, hF, hj, he]
            · intro l hl
              injection hl with h1
              exact h1.symm
            · simp [he, hc']
          · rw [if_neg hc]
            have hc' : ',' ∉ s.data := fun hmem =>
              hc ((contains_comma_iff s.data).mpr hmem)
            refine ⟨?_, ?_, ?_, ?_, ?_⟩
            · simp [hT, hF]
            · simp [hj, he]
            · simp [hc']
            · intro l hl; exact absurd hl (by simp)
            · simp [he, hT, hF, hj, hc']
        · simp only [hj]
          by_cases hc : s.data.contains ',' = true
          · rw [if_pos hc]
            have hc' : ',' ∈ s.data := (contains_comma_iff s.data).mp hc
            refine ⟨?_, ?_, ?_, ?_, ?_⟩
            · simp [hT, hF]
            · simp [hj, he]
            · simp [hc', hT, hF, hj, he]
            · intro l hl
              injection hl with h1
              exact h1.symm
            · simp [he, hc']
          · rw [if_neg hc]
            have hc' : ',' ∉ s.data := fun hmem =>
              hc ((contains_comma_iff s.data).mpr hmem)
            refine ⟨?_, ?_, ?_, ?_, ?_⟩
            · simp [hT, hF]
            · simp [hj, he]
            · simp [hc']
            · intro l hl; exact absurd hl (by simp)
            · simp [he, hT, hF, hj, hc']
        · simp only [hj]
          by_cases hc : s.data.contains ',' = true
          · rw [if_pos hc]
            have hc' : ',' ∈ s.data := (contains_comma_iff s.data).mp hc
            refine ⟨?_, ?_, ?_, ?_, ?_⟩
            · simp [hT, hF]
            · simp [hj, he]
            · simp [hc', hT, hF, hj, he]
            · intro l hl
              injection hl with h1
              exact h1.symm
            · simp [he, hc']
          · rw [if_neg hc]
            have hc' : ',' ∉ s.data := fun hmem =>
              hc ((contains_comma_iff s.data).mpr hmem)
            refine ⟨?_, ?_, ?_, ?_, ?_⟩
            · simp [hT, hF]
            · simp [hj, he]
            · simp [hc']
            · intro l hl; exact absurd hl (by simp)
            · simp [he, hT, hF, hj, hc']
        · simp only [hj]
          refine ⟨?_, ?_, ?_, ?_, ?_⟩
          · simp [hT, hF]
          · simp [hj, he]
          · simp [hj, he]
          · intro l hl; exact absurd hl (by simp)
          · simp [he, hj]

/-- Witness for C3's amended theorem at the concrete trimmed input "TRUE". -/
theorem c3_value_inference_amended_witness :
    (∃ b, parseValue "TRUE" = Value.bool b) ↔
      (toLowerStr "TRUE" = "true" ∨ toLowerStr "TRUE" = "false") :=
  (c3_value_inference_amended "TRUE" (by decide)).1

theorem splitCh_cons (c x : Char) (xs : List Char) :
    splitCh c (x :: xs) =
      if x = c then [] :: splitCh c xs
      else
        match splitCh c xs with
        | [] => [[x]]
        | y :: ys => (x :: y) :: ys := by
  rfl

theorem splitCh_ne_nil (c : Char) (l : List Char) : splitCh c l ≠ [] := by
  cases l with
  | nil => simp [splitCh]
  | cons x xs =>
    rw [splitCh_cons]
    split
    · simp
    · split <;> simp

theorem splitCh_not_mem (c : Char) (l : List Char) (h : c ∉ l) :
    splitCh c l = [l] := by
  induction l with
  | nil => rfl
  | cons x xs ih =>
    rw [splitCh_cons,
      if_neg (fun hx => h (List.mem_cons.mpr (Or.inl hx.symm))),
      ih (fun hm => h (List.mem_cons_of_mem x hm))]

theorem splitCh_append (c : Char) (xs ys : List Char) (h : c ∉ xs) :
    splitCh c (xs ++ c :: ys) = xs :: splitCh c ys := by
  induction xs with
  | nil =>
    simp only [List.nil_append]
    rw [splitCh_cons, if_pos rfl]
  | cons x t ih =>
    simp only [List.cons_append]
    rw [splitCh_cons,
      if_neg (fun hx => h (List.mem_cons.mpr (Or.inl hx.symm))),
      ih (fun hm => h (List.mem_cons_of_mem x hm))]

theorem dropWhile_not_head {p : Char → Bool} (c : Char) (rest : List Char)
    (h : p c = false) : (c :: rest).dropWhile p = c :: rest := by
  simp [List.dropWhile_cons, h]

theorem commentTest_head (l : String) (c : Char) (rest : List Char)
    (hd : l.data = c :: rest) (hws : isJsWs c = false) (hh : c ≠ '#') :
    commentTest l = false := by
  unfold commentTest
  rw [hd, dropWhile_not_head c rest hws]
  split
  · next heq => injection heq with h1 _; exact absurd h1 hh
  · rfl

theorem trimL_ne_nil_head (c : Char) (rest : List Char)
    (hws : isJsWs c = false) : trimL (c :: rest) ≠ [] := by
  unfold trimL
  rw [dropWhile_not_head c rest hws]
  intro hcon
  rw [List.reverse_eq_nil_iff, List.dropWhile_eq_nil_iff] at hcon
  exact absurd (hcon c (by simp)) (by simp [hws])

theorem jsTrim_beq_empty_head (l : String) (c : Char) (rest : List Char)
    (hd : l.data = c :: rest) (hws : isJsWs c = false) :
    (jsTrim l == "") = false := by
  apply beq_eq_false_iff_ne.mpr
  intro hcon
  have : trimL l.data = [] := congrArg String.data hcon
  rw [hd] at this
  exact trimL_ne_nil_head c rest hws this

theorem endsCont_append (l : String) (a : List Char)
    (hd : l.data = a ++ ['\\']) : endsCont l = true := by
  unfold endsCont
  rw [hd]
  simp only [List.reverse_append, List.reverse_cons, List.reverse_nil,
    List.nil_append, List.singleton_append]
  rw [dropWhile_not_head '\\' a.reverse (by decide)]
  rfl

theorem stripCont_append (l : String) (a : List Char)
    (hd : l.data = a ++ ['\\']) : stripCont l = ⟨a⟩ := by
  unfold stripCont
  rw [hd]
  simp only [List.reverse_append, List.reverse_cons, List.reverse_nil,
    List.nil_append, List.singleton_append]
  rw [dropWhile_not_head '\\' a.reverse (by decide)]
  simp

theorem sectionMatch_head (l : String) (c : Char) (rest : List Char)
    (hd : l.data = c :: rest) (hc : c ≠ '[') : sectionMatch l = none := by
  unfold sectionMatch
  rw [hd]
  split
  · next heq => injection heq with h1 _; exact absurd h1 hc
  · rfl


theorem takeWhile_all_append (p : Char → Bool) (pre : List Char) (d : Char)
    (x : List Char) (hp : ∀ c ∈ pre, p c = true) (hdx : p d = false) :
    (pre ++ d :: x).takeWhile p = pre ∧
    (pre ++ d :: x).dropWhile p = d :: x := by
  induction pre with
  | nil => simp [List.takeWhile_cons, List.dropWhile_cons, hdx]
  | cons a t ih =>
    have ha : p a = true := hp a (by simp)
    have iht := ih (fun c hc => hp c (List.mem_cons_of_mem a hc))
    simp [List.takeWhile_cons, List.dropWhile_cons, ha, iht.1, iht.2]

theorem keyValueMatch_head (l : String) (pre x : List Char)
    (hd : l.data = pre ++ ':' :: x)
    (hpre : pre ≠ [])
    (hpc : ∀ c ∈ pre, (c == ':' || c == '=') = false)
    (hX : ∀ c ∈ x.dropWhile isJsWs, isLineTerm c = false) :
    keyValueMatch l = some (⟨pre⟩, ⟨x.dropWhile isJsWs⟩) := by
  unfold keyValueMatch
  rw [hd]
  have hsep : (fun c => !(c == ':' || c == '=')) ':' = false := by decide
  have htk := takeWhile_all_append (fun c => !(c == ':' || c == '=')) pre ':' x
    (fun c hc => by simp [hpc c hc]) hsep
  rw [htk.1, htk.2]
  dsimp only
  rw [if_neg (by simpa using hpre)]
  rw [show (x.dropWhile isJsWs).any isLineTerm = false from
    List.any_eq_false.mpr (fun c hc => by simp [hX c hc])]
  rfl

theorem dropWhile_idem (p : Char → Bool) (l : List Char) :
    (l.dropWhile p).dropWhile p = l.dropWhile p := by
  induction l with
  | nil => rfl
  | cons c rest ih =>
    by_cases h : p c
    · simp [List.dropWhile_cons, h, ih]
    · simp [List.dropWhile_cons, h]

theorem trimL_dropWhile (l : List Char) :
    trimL (l.dropWhile isJsWs) = trimL l := by
  unfold trimL
  rw [dropWhile_idem]

theorem mem_trimL (x : Char) (l : List Char) (h : x ∈ trimL l) : x ∈ l := by
  unfold trimL at h
  rw [List.mem_reverse] at h
  have h1 := (List.dropWhile_sublist isJsWs).mem h
  rw [List.mem_reverse] at h1
  exact (List.dropWhile_sublist isJsWs).mem h1

theorem noInc_chunk_false (l tail : List Char)
    (hl : ∀ c ∈ l, isLineTerm c = false) (h : noIncludeStart tail false) :
    noIncludeStart (l ++ tail) false := by
  induction l with
  | nil => exact h
  | cons c t ih =>
    refine ⟨fun hcon => absurd hcon (by simp), ?_⟩
    rw [hl c (by simp)]
    exact ih (fun d hd => hl d (List.mem_cons_of_mem c hd))

theorem noInc_chunk_true (l tail : List Char)
    (hl : ∀ c ∈ l, isLineTerm c = false) (hne : l ≠ [])
    (hpre : "[include".data.isPrefixOf (l ++ tail) = false)
    (h : noIncludeStart tail false) :
    noIncludeStart (l ++ tail) true := by
  cases l with
  | nil => exact absurd rfl hne
  | cons c t =>
    refine ⟨fun _ => hpre, ?_⟩
    rw [hl c (by simp)]
    exact noInc_chunk_false t tail (fun d hd => hl d (List.mem_cons_of_mem c hd)) h

theorem noInc_newline (rest : List Char) (h : noIncludeStart rest true) :
    noIncludeStart ('\n' :: rest) false :=
  ⟨fun hcon => absurd hcon (by simp), by rw [show isLineTerm '\n' = true from rfl]; exact h⟩

theorem scanInc_copy :
    ∀ (cs : List Char) (fuel : Nat) (ls : Bool) (ai : List String)
      (ac : List Char), cs.length ≤ fuel → noIncludeStart cs ls →
      scanInc fuel cs ls ai ac = (ai.reverse, ac.reverse ++ cs) := by
  intro cs
  induction cs with
  | nil =>
    intro fuel ls ai ac _ _
    cases fuel <;> simp [scanInc]
  | cons c rest ih =>
    intro fuel ls ai ac hf hinv
    cases fuel with
    | zero => simp at hf
    | succ f =>
      obtain ⟨h1, h2⟩ := hinv
      unfold scanInc
      cases ls with
      | false =>
        simp only [Bool.false_eq_true, if_false]
        rw [ih f (isLineTerm c) ai (c :: ac) (by simpa using hf) h2]
        simp
      | true =>
        simp only [if_true]
        rw [show matchInclude (c :: rest) = none from by
          unfold matchInclude
          rw [if_neg (by simp [h1 rfl])]]
        rw [ih f (isLineTerm c) ai (c :: ac) (by simpa using hf) h2]
        simp

theorem extractIncludes_id (content : String)
    (h : noIncludeStart content.data true) :
    extractIncludes content = ([], content) := by
  unfold extractIncludes
  rw [scanInc_copy content.data content.data.length true [] [] le_rfl h]
  rfl

theorem parseConfig_config_flag (content : String) (b : Bool) :
    (parseConfig content b).config = (parseConfig content false).config := by
  have h := goLines_core b false
    (jsSplit '\n' (extractIncludes content).2) 1 ⟨[], none, [], []⟩
    ⟨[], none, [], []⟩ rfl
  have e1 : (parseConfig content b).config
      = commitCurr (goLines b
          (jsSplit '\n' (extractIncludes content).2) 1 ⟨[], none, [], []⟩) := rfl
  have e2 : (parseConfig content false).config
      = commitCurr (goLines false
          (jsSplit '\n' (extractIncludes content).2) 1 ⟨[], none, [], []⟩) := rfl
  rw [e1, e2]
  exact commitCurr_core _ _ h

theorem goLines_nil (v : Bool) (n : Nat) (st : PState) :
    goLines v [] n st = st := rfl

theorem goLines_cons₂ (v : Bool) (l nxt : String) (rest : List String)
    (n : Nat) (st : PState)
    (hcb : (commentTest l || jsTrim l == "") = false)
    (hcont : endsCont l = false) :
    goLines v (l :: nxt :: rest) n st
      = goLines v (nxt :: rest) (n + 1) (processLine v n l st) := by
  conv_lhs => rw [goLines]
  rw [hcb]
  simp only [Bool.false_eq_true, if_false]
  rw [hcont]
  simp only [Bool.false_eq_true, if_false]

theorem goLines_cons₂_cont (v : Bool) (l nxt : String) (rest : List String)
    (n : Nat) (st : PState)
    (hcb : (commentTest l || jsTrim l == "") = false)
    (hcont : endsCont l = true) :
    goLines v (l :: nxt :: rest) n st
      = goLines v rest (n + 2)
          (processLine v n (stripCont l ++ " " ++ jsTrim nxt) st) := by
  conv_lhs => rw [goLines]
  rw [hcb]
  simp only [Bool.false_eq_true, if_false]
  rw [hcont]
  simp only [if_true]

theorem goLines_one (v : Bool) (l : String) (n : Nat) (st : PState)
    (hcb : (commentTest l || jsTrim l == "") = false) :
    goLines v [l] n st = processLine v n l st := by
  conv_lhs => rw [goLines]
  rw [hcb]
  simp only [Bool.false_eq_true, if_false]

theorem objSet_nil {α : Type} (k : String) (v : α) :
    objSet ([] : List (String × α)) k v = [(k, v)] := rfl

theorem include_prefix_cons (c : Char) (rest : List Char) (h : c ≠ '[') :
    "[include".data.isPrefixOf (c :: rest) = false := by
  rw [show "[include".data = '[' :: "include".data from rfl]
  simp [List.isPrefixOf, beq_eq_false_iff_ne, Ne.symm h]

theorem include_prefix_bracket (c : Char) (rest : List Char) (h : c ≠ 'i') :
    "[include".data.isPrefixOf ('[' :: c :: rest) = false := by
  rw [show "[include".data = '[' :: 'i' :: "nclude".data from rfl]
  simp [List.isPrefixOf, beq_eq_false_iff_ne, Ne.symm h]

theorem noInc_line_alone (l : List Char)
    (hl : ∀ c ∈ l, isLineTerm c = false)
    (hpre : "[include".data.isPrefixOf l = false) :
    noIncludeStart l true := by
  cases l with
  | nil => trivial
  | cons c t =>
    refine ⟨fun _ => hpre, ?_⟩
    rw [hl c (by simp)]
    have := noInc_chunk_false t [] (fun d hd => hl d (List.mem_cons_of_mem c hd))
      (by trivial)
    rwa [List.append_nil] at this

theorem trimL_cons_ws (c : Char) (l : List Char) (h : isJsWs c = true) :
    trimL (c :: l) = trimL l := by
  unfold trimL
  rw [List.dropWhile_cons, h]
  simp

theorem continuation_merge_general (v next : String) (b : Bool)
    (hv : ∀ c ∈ v.data, isLineTerm c = false)
    (hn : ∀ c ∈ next.data, isLineTerm c = false)
    (hni : "[include".data.isPrefixOf next.data = false) :
    (parseConfig ("[s]\nspeed: " ++ v ++ "\\\n" ++ next) b).config
      = [("s", [("speed", parseValue (jsTrim (v ++ " " ++ jsTrim next)))])] := by
  rw [parseConfig_config_flag _ b]
  have hvnl : '\n' ∉ v.data := fun hm => absurd (hv '\n' hm) (by decide)
  have hnnl : '\n' ∉ next.data := fun hm => absurd (hn '\n' hm) (by decide)
  have hdata : ("[s]\nspeed: " ++ v ++ "\\\n" ++ next).data
      = "[s]".data ++ '\n' ::
          (("speed: ".data ++ v.data ++ ['\\']) ++ '\n' :: next.data) := by
    simp [String.data_append]
  -- the line-2 character list
  set L2d : List Char := "speed: ".data ++ v.data ++ ['\\'] with hL2d
  have hL2free : ∀ c ∈ L2d, isLineTerm c = false := by
    intro c hc
    rw [hL2d] at hc
    rcases List.mem_append.mp hc with hc1 | hc2
    · rcases List.mem_append.mp hc1 with hc3 | hc4
      · fin_cases hc3 <;> decide
      · exact hv c hc4
    · rcases List.mem_singleton.mp hc2 with rfl
      decide
  have hninc : noIncludeStart ("[s]\nspeed: " ++ v ++ "\\\n" ++ next).data true := by
    rw [hdata]
    apply noInc_chunk_true _ _ (by decide) (by decide)
    · exact include_prefix_bracket 's' _ (by decide)
    · apply noInc_newline
      apply noInc_chunk_true _ _ hL2free (by simp [hL2d])
      · rw [show L2d ++ '\n' :: next.data
            = 's' :: ("peed: ".data ++ v.data ++ ['\\'] ++ '\n' :: next.data) from by
          simp [hL2d, List.append_assoc]]
        exact include_prefix_cons 's' _ (by decide)
      · exact noInc_newline next.data (noInc_line_alone next.data hn hni)
  have hEx : extractIncludes ("[s]\nspeed: " ++ v ++ "\\\n" ++ next)
      = ([], "[s]\nspeed: " ++ v ++ "\\\n" ++ next) :=
    extractIncludes_id _ hninc
  have hL2nl : '\n' ∉ L2d := fun hm => absurd (hL2free '\n' hm) (by decide)
  have hSplitD : splitCh '\n' ("[s]\nspeed: " ++ v ++ "\\\n" ++ next).data
      = ["[s]".data, L2d, next.data] := by
    rw [hdata, splitCh_append '\n' _ _ (by decide),
      splitCh_append '\n' _ _ hL2nl, splitCh_not_mem '\n' _ hnnl]
  have hSplit : jsSplit '\n' ("[s]\nspeed: " ++ v ++ "\\\n" ++ next)
      = ["[s]", ⟨L2d⟩, next] := by
    unfold jsSplit
    rw [hSplitD]
    rfl
  have e : (parseConfig ("[s]\nspeed: " ++ v ++ "\\\n" ++ next) false).config
      = commitCurr (goLines false
          (jsSplit '\n' (extractIncludes ("[s]\nspeed: " ++ v ++ "\\\n" ++ next)).2)
          1 ⟨[], none, [], []⟩) := rfl
  rw [e, hEx, hSplit]
  -- step 1: the section header line
  rw [goLines_cons₂ false "[s]" _ _ 1 _ (by decide) (by decide)]
  rw [show processLine false 1 "[s]" ⟨[], none, [], []⟩
      = ⟨[], some "s", [], []⟩ from rfl]
  -- step 2: the continuation line merges with the next line
  have hL2data : (⟨L2d⟩ : String).data = 's' :: ("peed: ".data ++ v.data ++ ['\\']) := by
    simp [hL2d, List.append_assoc]
  rw [goLines_cons₂_cont false ⟨L2d⟩ next [] 2 _
      (by rw [Bool.or_eq_false_iff]
          exact ⟨commentTest_head _ _ _ hL2data (by decide) (by decide),
            jsTrim_beq_empty_head _ _ _ hL2data (by decide)⟩)
      (endsCont_append _ ("speed: ".data ++ v.data) (by simp [hL2d]))]
  rw [goLines_nil]
  -- the merged line
  rw [stripCont_append ⟨L2d⟩ ("speed: ".data ++ v.data) (by simp [hL2d])]
  set X0 : List Char := v.data ++ ' ' :: trimL next.data with hX0
  have hjn : (jsTrim next).data = trimL next.data := rfl
  have hmg : ((⟨"speed: ".data ++ v.data⟩ : String) ++ " " ++ jsTrim next).data
      = "speed".data ++ ':' :: (' ' :: X0) := by
    rw [String.data_append, String.data_append]
    rw [show ((⟨"speed: ".data ++ v.data⟩ : String)).data
        = "speed: ".data ++ v.data from rfl]
    rw [hjn, hX0]
    rw [show " ".data = [' '] from rfl]
    rw [show "speed: ".data = "speed".data ++ ':' :: [' '] from rfl]
    simp [List.append_assoc]
  have hmc : ((⟨"speed: ".data ++ v.data⟩ : String) ++ " " ++ jsTrim next).data
      = 's' :: ("peed".data ++ ':' :: (' ' :: X0)) := by
    rw [hmg]; rfl
  have hX0free : ∀ c ∈ (' ' :: X0).dropWhile isJsWs, isLineTerm c = false := by
    intro c hc
    have hc' : c ∈ ' ' :: X0 := (List.dropWhile_sublist isJsWs).mem hc
    rcases List.mem_cons.mp hc' with rfl | hc2
    · decide
    · rw [hX0] at hc2
      rcases List.mem_append.mp hc2 with hc3 | hc4
      · exact hv c hc3
      · rcases List.mem_cons.mp hc4 with rfl | hc5
        · decide
        · exact hn c (mem_trimL c next.data hc5)
  have hkv := keyValueMatch_head _ "speed".data (' ' :: X0) hmg
    (by decide) (by decide) hX0free
  -- evaluate processLine on the merged line
  rw [show processLine false 2
        ((⟨"speed: ".data ++ v.data⟩ : String) ++ " " ++ jsTrim next)
        ⟨[], some "s", [], []⟩
      = ⟨[], some "s", [("speed", parseValue ⟨trimL X0⟩)], []⟩ from by
    unfold processLine
    rw [sectionMatch_head _ 's' _ hmc (by decide)]
    rw [hkv]
    dsimp only
    rw [show jsTrim ⟨(' ' :: X0).dropWhile isJsWs⟩ = (⟨trimL X0⟩ : String) from by
      unfold jsTrim
      rw [show ((⟨(' ' :: X0).dropWhile isJsWs⟩ : String).data
          = (' ' :: X0).dropWhile isJsWs) from rfl]
      rw [trimL_dropWhile, trimL_cons_ws ' ' X0 (by decide)]]
    rw [if_pos (by decide : (jsTrim "speed" : String) ≠ "")]
    rfl]
  -- commit
  rw [show commitCurr ⟨[], some "s", [("speed", parseValue ⟨trimL X0⟩)], []⟩
      = [("s", [("speed", parseValue ⟨trimL X0⟩)])] from rfl]
  rw [show jsTrim (v ++ " " ++ jsTrim next) = (⟨trimL X0⟩ : String) from by
    show (⟨trimL (v ++ " " ++ jsTrim next).data⟩ : String) = ⟨trimL X0⟩
    rw [show (v ++ " " ++ jsTrim next).data = X0 from by
      rw [String.data_append, String.data_append, hjn, hX0]
      rw [show " ".data = [' '] from rfl]
      simp [List.append_assoc]]]

theorem prefix_append_nl (P : List Char) (hnl : '\n' ∉ P) :
    ∀ (X T : List Char), P.isPrefixOf (X ++ '\n' :: T) = true →
      P.isPrefixOf X = true := by
  induction P with
  | nil => intro X T _; simp [List.isPrefixOf]
  | cons p ps ih =>
    intro X T h
    cases X with
    | nil =>
      rw [List.nil_append,
        show ((p :: ps).isPrefixOf ('\n' :: T)) = (p == '\n' && ps.isPrefixOf T)
          from rfl, Bool.and_eq_true, beq_iff_eq] at h
      exact absurd (List.mem_cons.mpr (Or.inl h.1.symm)) hnl
    | cons x xs =>
      rw [List.cons_append,
        show ((p :: ps).isPrefixOf (x :: (xs ++ '\n' :: T)))
          = (p == x && ps.isPrefixOf (xs ++ '\n' :: T)) from rfl,
        Bool.and_eq_true] at h
      rw [show ((p :: ps).isPrefixOf (x :: xs)) = (p == x && ps.isPrefixOf xs)
        from rfl, Bool.and_eq_true]
      exact ⟨h.1, ih (fun hm => hnl (List.mem_cons_of_mem p hm)) xs T h.2⟩

theorem include_prefix_append_nl (X T : List Char)
    (h : "[include".data.isPrefixOf X = false) :
    "[include".data.isPrefixOf (X ++ '\n' :: T) = false := by
  by_contra hc
  rw [Bool.not_eq_false] at hc
  rw [prefix_append_nl "[include".data (by decide) X T hc] at h
  exact absurd h (by simp)

theorem noInc_line_then (l tail : List Char)
    (hl : ∀ c ∈ l, isLineTerm c = false)
    (hpre : "[include".data.isPrefixOf (l ++ '\n' :: tail) = false)
    (h : noIncludeStart tail true) :
    noIncludeStart (l ++ '\n' :: tail) true := by
  cases l with
  | nil =>
    simp only [List.nil_append]
    exact ⟨fun _ => include_prefix_cons '\n' tail (by decide), h⟩
  | cons c t =>
    exact noInc_chunk_true _ _ hl (by simp) hpre (noInc_newline tail h)

theorem no_chain_general (v next : String) (b : Bool)
    (hv : ∀ c ∈ v.data, isLineTerm c = false)
    (hn : ∀ c ∈ next.data, isLineTerm c = false)
    (hni : "[include".data.isPrefixOf next.data = false) :
    (parseConfig ("[x]\nk: " ++ v ++ "\\\n" ++ next ++ "\nw: 2") b).config
      = [("x", [("k", parseValue (jsTrim (v ++ " " ++ jsTrim next))),
                ("w", Value.num 2)])] := by
  rw [parseConfig_config_flag _ b]
  have hvnl : '\n' ∉ v.data := fun hm => absurd (hv '\n' hm) (by decide)
  have hnnl : '\n' ∉ next.data := fun hm => absurd (hn '\n' hm) (by decide)
  have hdata : ("[x]\nk: " ++ v ++ "\\\n" ++ next ++ "\nw: 2").data
      = "[x]".data ++ '\n' ::
          (("k: ".data ++ v.data ++ ['\\']) ++ '\n' ::
            (next.data ++ '\n' :: "w: 2".data)) := by
    simp [String.data_append]
  set L2d : List Char := "k: ".data ++ v.data ++ ['\\'] with hL2d
  have hL2free : ∀ c ∈ L2d, isLineTerm c = false := by
    intro c hc
    rw [hL2d] at hc
    rcases List.mem_append.mp hc with hc1 | hc2
    · rcases List.mem_append.mp hc1 with hc3 | hc4
      · fin_cases hc3 <;> decide
      · exact hv c hc4
    · rcases List.mem_singleton.mp hc2 with rfl
      decide
  have hninc : noIncludeStart ("[x]\nk: " ++ v ++ "\\\n" ++ next ++ "\nw: 2").data true := by
    rw [hdata]
    apply noInc_chunk_true _ _ (by decide) (by decide)
    · exact include_prefix_bracket 'x' _ (by decide)
    · apply noInc_newline
      apply noInc_chunk_true _ _ hL2free (by simp [hL2d])
      · rw [show L2d ++ '\n' :: (next.data ++ '\n' :: "w: 2".data)
            = 'k' :: (": ".data ++ v.data ++ ['\\'] ++ '\n' :: (next.data ++ '\n' :: "w: 2".data)) from by
          simp [hL2d, List.append_assoc]]
        exact include_prefix_cons 'k' _ (by decide)
      · apply noInc_newline
        apply noInc_line_then next.data "w: 2".data hn
          (include_prefix_append_nl next.data "w: 2".data hni)
        exact noInc_line_alone "w: 2".data (by decide)
          (include_prefix_cons 'w' _ (by decide))
  have hEx := extractIncludes_id _ hninc
  have hL2nl : '\n' ∉ L2d := fun hm => absurd (hL2free '\n' hm) (by decide)
  have hSplitD : splitCh '\n' ("[x]\nk: " ++ v ++ "\\\n" ++ next ++ "\nw: 2").data
      = ["[x]".data, L2d, next.data, "w: 2".data] := by
    rw [hdata, splitCh_append '\n' _ _ (by decide),
      splitCh_append '\n' _ _ hL2nl, splitCh_append '\n' _ _ hnnl,
      splitCh_not_mem '\n' _ (by decide)]
  have hSplit : jsSplit '\n' ("[x]\nk: " ++ v ++ "\\\n" ++ next ++ "\nw: 2")
      = ["[x]", ⟨L2d⟩, next, "w: 2"] := by
    unfold jsSplit
    rw [hSplitD]
    rfl
  have e : (parseConfig ("[x]\nk: " ++ v ++ "\\\n" ++ next ++ "\nw: 2") false).config
      = commitCurr (goLines false
          (jsSplit '\n' (extractIncludes ("[x]\nk: " ++ v ++ "\\\n" ++ next ++ "\nw: 2")).2)
          1 ⟨[], none, [], []⟩) := rfl
  rw [e, hEx, hSplit]
  rw [goLines_cons₂ false "[x]" _ _ 1 _ (by decide) (by decide)]
  rw [show processLine false 1 "[x]" ⟨[], none, [], []⟩
      = ⟨[], some "x", [], []⟩ from rfl]
  have hL2data : (⟨L2d⟩ : String).data = 'k' :: (": ".data ++ v.data ++ ['\\']) := by
    simp [hL2d, List.append_assoc]
  rw [goLines_cons₂_cont false ⟨L2d⟩ next ["w: 2"] 2 _
      (by rw [Bool.or_eq_false_iff]
          exact ⟨commentTest_head _ _ _ hL2data (by decide) (by decide),
            jsTrim_beq_empty_head _ _ _ hL2data (by decide)⟩)
      (endsCont_append _ ("k: ".data ++ v.data) (by simp [hL2d]))]
  rw [stripCont_append ⟨L2d⟩ ("k: ".data ++ v.data) (by simp [hL2d])]
  set X0 : List Char := v.data ++ ' ' :: trimL next.data with hX0
  have hjn : (jsTrim next).data = trimL next.data := rfl
  have hmg : ((⟨"k: ".data ++ v.data⟩ : String) ++ " " ++ jsTrim next).data
      = "k".data ++ ':' :: (' ' :: X0) := by
    rw [String.data_append, String.data_append]
    rw [show ((⟨"k: ".data ++ v.data⟩ : String)).data
        = "k: ".data ++ v.data from rfl]
    rw [hjn, hX0]
    rw [show " ".data = [' '] from rfl]
    rw [show "k: ".data = "k".data ++ ':' :: [' '] from rfl]
    simp [List.append_assoc]
  have hmc : ((⟨"k: ".data ++ v.data⟩ : String) ++ " " ++ jsTrim next).data
      = 'k' :: (':' :: (' ' :: X0)) := by
    rw [hmg]; rfl
  have hX0free : ∀ c ∈ (' ' :: X0).dropWhile isJsWs, isLineTerm c = false := by
    intro c hc
    have hc' : c ∈ ' ' :: X0 := (List.dropWhile_sublist isJsWs).mem hc
    rcases List.mem_cons.mp hc' with rfl | hc2
    · decide
    · rw [hX0] at hc2
      rcases List.mem_append.mp hc2 with hc3 | hc4
      · exact hv c hc3
      · rcases List.mem_cons.mp hc4 with rfl | hc5
        · decide
        · exact hn c (mem_trimL c next.data hc5)
  have hkv := keyValueMatch_head _ "k".data (' ' :: X0) hmg
    (by decide) (by decide) hX0free
  rw [show processLine false 2
        ((⟨"k: ".data ++ v.data⟩ : String) ++ " " ++ jsTrim next)
        ⟨[], some "x", [], []⟩
      = ⟨[], some "x", [("k", parseValue ⟨trimL X0⟩)], []⟩ from by
    unfold processLine
    rw [sectionMatch_head _ 'k' _ hmc (by decide)]
    rw [hkv]
    dsimp only
    rw [show jsTrim ⟨(' ' :: X0).dropWhile isJsWs⟩ = (⟨trimL X0⟩ : String) from by
      unfold jsTrim
      rw [show ((⟨(' ' :: X0).dropWhile isJsWs⟩ : String).data
          = (' ' :: X0).dropWhile isJsWs) from rfl]
      rw [trimL_dropWhile, trimL_cons_ws ' ' X0 (by decide)]]
    rw [if_pos (by decide : (jsTrim "k" : String) ≠ "")]
    rfl]
  rw [goLines_one false "w: 2" 4 _ (by decide)]
  rw [show processLine false 4 "w: 2"
        ⟨[], some "x", [("k", parseValue ⟨trimL X0⟩)], []⟩
      = ⟨[], some "x", [("k", parseValue ⟨trimL X0⟩), ("w", Value.num 2)], []⟩ from rfl]
  rw [show commitCurr
        ⟨[], some "x", [("k", parseValue ⟨trimL X0⟩), ("w", Value.num 2)], []⟩
      = [("x", [("k", parseValue ⟨trimL X0⟩), ("w", Value.num 2)])] from rfl]
  rw [show jsTrim (v ++ " " ++ jsTrim next) = (⟨trimL X0⟩ : String) from by
    show (⟨trimL (v ++ " " ++ jsTrim next).data⟩ : String) = ⟨trimL X0⟩
    rw [show (v ++ " " ++ jsTrim next).data = X0 from by
      rw [String.data_append, String.data_append, hjn, hX0]
      rw [show " ".data = [' '] from rfl]
      simp [List.append_assoc]]]

theorem final_backslash_general (s : String) (b : Bool)
    (hs : ∀ c ∈ s.data, isLineTerm c = false)
    (_hcont : endsCont ("k: " ++ s) = true) :
    (parseConfig ("[x]\nk: " ++ s) b).config
      = [("x", [("k", parseValue (jsTrim s))])] := by
  rw [parseConfig_config_flag _ b]
  have hsnl : '\n' ∉ s.data := fun hm => absurd (hs '\n' hm) (by decide)
  have hdata : ("[x]\nk: " ++ s).data
      = "[x]".data ++ '\n' :: ("k: ".data ++ s.data) := by
    simp [String.data_append]
  set L2d : List Char := "k: ".data ++ s.data with hL2d
  have hL2free : ∀ c ∈ L2d, isLineTerm c = false := by
    intro c hc
    rw [hL2d] at hc
    rcases List.mem_append.mp hc with hc1 | hc2
    · fin_cases hc1 <;> decide
    · exact hs c hc2
  have hninc : noIncludeStart ("[x]\nk: " ++ s).data true := by
    rw [hdata]
    apply noInc_chunk_true _ _ (by decide) (by decide)
    · exact include_prefix_bracket 'x' _ (by decide)
    · apply noInc_newline
      apply noInc_line_alone L2d hL2free
      rw [show L2d = 'k' :: (": ".data ++ s.data) from by simp [hL2d]]
      exact include_prefix_cons 'k' _ (by decide)
  have hEx := extractIncludes_id _ hninc
  have hL2nl : '\n' ∉ L2d := fun hm => absurd (hL2free '\n' hm) (by decide)
  have hSplitD : splitCh '\n' ("[x]\nk: " ++ s).data = ["[x]".data, L2d] := by
    rw [hdata, splitCh_append '\n' _ _ (by decide), splitCh_not_mem '\n' _ hL2nl]
  have hSplit : jsSplit '\n' ("[x]\nk: " ++ s) = ["[x]", ⟨L2d⟩] := by
    unfold jsSplit
    rw [hSplitD]
    rfl
  have e : (parseConfig ("[x]\nk: " ++ s) false).config
      = commitCurr (goLines false
          (jsSplit '\n' (extractIncludes ("[x]\nk: " ++ s)).2)
          1 ⟨[], none, [], []⟩) := rfl
  rw [e, hEx, hSplit]
  rw [goLines_cons₂ false "[x]" _ _ 1 _ (by decide) (by decide)]
  rw [show processLine false 1 "[x]" ⟨[], none, [], []⟩
      = ⟨[], some "x", [], []⟩ from rfl]
  have hL2data : (⟨L2d⟩ : String).data = 'k' :: (": ".data ++ s.data) := by
    simp [hL2d]
  rw [goLines_one false ⟨L2d⟩ 2 _
      (by rw [Bool.or_eq_false_iff]
          exact ⟨commentTest_head _ _ _ hL2data (by decide) (by decide),
            jsTrim_beq_empty_head _ _ _ hL2data (by decide)⟩)]
  have hmg : (⟨L2d⟩ : String).data = "k".data ++ ':' :: (' ' :: s.data) := by
    rw [hL2data]; rfl
  have hmc : (⟨L2d⟩ : String).data = 'k' :: (':' :: (' ' :: s.data)) := by
    rw [hmg]; rfl
  have hsfree : ∀ c ∈ (' ' :: s.data).dropWhile isJsWs, isLineTerm c = false := by
    intro c hc
    have hc' : c ∈ ' ' :: s.data := (List.dropWhile_sublist isJsWs).mem hc
    rcases List.mem_cons.mp hc' with rfl | hc2
    · decide
    · exact hs c hc2
  have hkv := keyValueMatch_head _ "k".data (' ' :: s.data) hmg
    (by decide) (by decide) hsfree
  rw [show processLine false 2 (⟨L2d⟩ : String) ⟨[], some "x", [], []⟩
      = ⟨[], some "x", [("k", parseValue (jsTrim s))], []⟩ from by
    unfold processLine
    rw [sectionMatch_head _ 'k' _ hmc (by decide)]
    rw [hkv]
    dsimp only
    rw [show jsTrim ⟨(' ' :: s.data).dropWhile isJsWs⟩ = jsTrim s from by
      unfold jsTrim
      rw [show ((⟨(' ' :: s.data).dropWhile isJsWs⟩ : String).data
          = (' ' :: s.data).dropWhile isJsWs) from rfl]
      rw [trimL_dropWhile, trimL_cons_ws ' ' s.data (by decide)]]
    rw [if_pos (by decide : (jsTrim "k" : String) ≠ "")]
    rfl]
  rfl

/-- C4 (amended): a physical line ending (after optional trailing
whitespace) with a backslash merges with the trimmed following line; the
backslash and the whitespace after it are stripped, the whitespace before
it is kept, and a single separator space is inserted — so the two-line
input `speed: 10 \` / `more` stores under "speed" the string "10  more"
with two internal spaces (the claim said one).  The general conjunct fixes
the merged value for arbitrary line-terminator-free value and continuation
text (the continuation line not itself an include directive). -/
theorem c4_continuation_merge_amended :
    (∀ (v next : String) (b : Bool),
      (∀ c ∈ v.data, isLineTerm c = false) →
      (∀ c ∈ next.data, isLineTerm c = false) →
      "[include".data.isPrefixOf next.data = false →
      (parseConfig ("[s]\nspeed: " ++ v ++ "\\\n" ++ next) b).config
        = [("s", [("speed",
            parseValue (jsTrim (v ++ " " ++ jsTrim next)))])]) ∧
    parseConfig "[s]\nspeed: 10 \\\nmore" true
      = ⟨[("s", [("speed", Value.str "10  more")])], [], []⟩ :=
  ⟨fun v next b hv hn hni => continuation_merge_general v next b hv hn hni,
   rfl⟩

/-- Witness for C4's amended theorem at v = "10 ", next = "more". -/
theorem c4_continuation_merge_amended_witness :
    (parseConfig ("[s]\nspeed: " ++ "10 " ++ "\\\n" ++ "more") true).config
      = [("s", [("speed",
          parseValue (jsTrim ("10 " ++ " " ++ jsTrim "more")))])] :=
  c4_continuation_merge_amended.1 "10 " "more" true (by decide) (by decide)
    (by decide)

/-- C10: a continuation consumes exactly the one following physical line
and the merged line is not re-examined for a trailing backslash — in the
first conjunct the consumed line `next` may itself end with a backslash,
yet the line after it (`w: 2`) is parsed as an ordinary key/value line, so
continuations never chain; and a backslash ending the final line of input
is not stripped — in the second conjunct the stored value is computed from
the untouched final-line text `s` (which still ends with its backslash). -/
theorem c10_continuation_single_and_final :
    (∀ (v next : String) (b : Bool),
      (∀ c ∈ v.data, isLineTerm c = false) →
      (∀ c ∈ next.data, isLineTerm c = false) →
      "[include".data.isPrefixOf next.data = false →
      (parseConfig ("[x]\nk: " ++ v ++ "\\\n" ++ next ++ "\nw: 2") b).config
        = [("x", [("k", parseValue (jsTrim (v ++ " " ++ jsTrim next))),
                  ("w", Value.num 2)])]) ∧
    (∀ (s : String) (b : Bool),
      (∀ c ∈ s.data, isLineTerm c = false) →
      endsCont ("k: " ++ s) = true →
      (parseConfig ("[x]\nk: " ++ s) b).config
        = [("x", [("k", parseValue (jsTrim s))])]) :=
  ⟨fun v next b hv hn hni => no_chain_general v next b hv hn hni,
   fun s b hs hc => final_backslash_general s b hs hc⟩

/-- Witness for C10 at a backslash-ended continuation line and a
backslash-ended final line. -/
theorem c10_continuation_single_and_final_witness :
    (parseConfig ("[x]\nk: " ++ "1 " ++ "\\\n" ++ "v \\" ++ "\nw: 2") true).config
      = [("x", [("k", parseValue (jsTrim ("1 " ++ " " ++ jsTrim "v \\"))),
                ("w", Value.num 2)])] ∧
    (parseConfig ("[x]\nk: " ++ "a\\") true).config
      = [("x", [("k", parseValue (jsTrim "a\\"))])] :=
  ⟨c10_continuation_single_and_final.1 "1 " "v \\" true (by decide)
      (by decide) (by decide),
   c10_continuation_single_and_final.2 "a\\" true (by decide) (by decide)⟩

theorem processLine_commits (v : Bool) (n : Nat) (l : String) (st : PState) :
    (processLine v n l st).cfg
        = List.foldl (fun acc p => objSet acc p.1 p.2) st.cfg
            (commitsProcess l (st.curr, st.data)).2 ∧
    (processLine v n l st).curr = (commitsProcess l (st.curr, st.data)).1.1 ∧
    (processLine v n l st).data = (commitsProcess l (st.curr, st.data)).1.2 := by
  unfold processLine commitsProcess
  cases hsm : sectionMatch l with
  | some content =>
    unfold commitCurr
    cases hc : st.curr <;> simp [hc]
  | none =>
    cases hc : st.curr with
    | none =>
      simp only [hc]
      split_ifs <;> simp [hc]
    | some sec =>
      simp only [hc]
      cases hkv : keyValueMatch l with
      | none =>
        split_ifs <;> simp [hc]
      | some kv =>
        by_cases hkey : jsTrim kv.1 = ""
        · simp only [hkey]
          split_ifs <;> simp [hc]
        · refine ⟨by simp [hkey], by simp [hkey], by simp [hkey]⟩

theorem commitCurr_finalC (st : PState) :
    commitCurr st
      = List.foldl (fun acc p => objSet acc p.1 p.2) st.cfg
          (finalCommitC (st.curr, st.data)) := by
  unfold commitCurr finalCommitC
  cases hc : st.curr <;> simp [hc]

theorem goLines_commits (v : Bool) :
    ∀ (lines : List String) (n : Nat) (st : PState),
      commitCurr (goLines v lines n st)
        = List.foldl (fun acc p => objSet acc p.1 p.2) st.cfg
            (goCommitsLines lines n (st.curr, st.data))
  | [], n, st => by
    unfold goLines goCommitsLines
    exact commitCurr_finalC st
  | [l], n, st => by
    unfold goLines goCommitsLines
    split_ifs with h
    · exact commitCurr_finalC st
    · obtain ⟨h1, h2, h3⟩ := processLine_commits v n l st
      rw [List.foldl_append, ← h1]
      have := commitCurr_finalC (processLine v n l st)
      rw [this, h2, h3]
  | l :: nxt :: rest, n, st => by
    unfold goLines goCommitsLines
    split_ifs with h hcont
    · exact goLines_commits v (nxt :: rest) (n + 1) st
    · obtain ⟨h1, h2, h3⟩ :=
        processLine_commits v n (stripCont l ++ " " ++ jsTrim nxt) st
      rw [List.foldl_append, ← h1]
      have := goLines_commits v rest (n + 2)
        (processLine v n (stripCont l ++ " " ++ jsTrim nxt) st)
      rw [this, h2, h3]
    · obtain ⟨h1, h2, h3⟩ := processLine_commits v n l st
      rw [List.foldl_append, ← h1]
      have := goLines_commits v (nxt :: rest) (n + 1) (processLine v n l st)
      rw [this, h2, h3]

theorem mem_keysInOrder :
    ∀ (l : List (String × Section)) (a : String),
      a ∈ keysInOrder l → a ∈ l.map Prod.fst
  | [], a, h => by simp [keysInOrder] at h
  | (k, v) :: t, a, h => by
    rw [keysInOrder] at h
    rcases List.mem_cons.mp h with rfl | h2
    · simp
    · have := List.mem_filter.mp h2
      exact List.mem_cons_of_mem _ (mem_keysInOrder t a this.1)

theorem keysInOrder_filter (p : String → Bool) :
    ∀ (l : List (String × Section)),
      keysInOrder (l.filter (fun q => p q.1)) = (keysInOrder l).filter p
  | [] => by simp [keysInOrder]
  | (k, v) :: t => by
    by_cases hp : p k = true
    · rw [show ((k, v) :: t).filter (fun q => p q.1)
          = (k, v) :: t.filter (fun q => p q.1) from by
        simp [List.filter_cons, hp]]
      rw [keysInOrder, keysInOrder, keysInOrder_filter p t]
      rw [show ((k :: (keysInOrder t).filter fun a => !(a == k)).filter p)
          = k :: (((keysInOrder t).filter fun a => !(a == k)).filter p) from by
        simp [List.filter_cons, hp]]
      rw [List.filter_filter, List.filter_filter]
      congr 1
      apply List.filter_congr
      intro a _
      rw [Bool.and_comm]
    · rw [show ((k, v) :: t).filter (fun q => p q.1)
          = t.filter (fun q => p q.1) from by
        simp [List.filter_cons, hp]]
      rw [keysInOrder_filter p t, keysInOrder]
      rw [show ((k :: (keysInOrder t).filter fun a => !(a == k)).filter p)
          = (((keysInOrder t).filter fun a => !(a == k)).filter p) from by
        simp [List.filter_cons, hp]]
      rw [List.filter_filter]
      apply List.filter_congr
      intro a _
      by_cases hak : a = k
      · subst hak
        simp [hp]
      · simp [hak]

theorem lastVal_cons (x k : String) (v : Section)
    (t : List (String × Section)) (d : Section) :
    lastVal x ((k, v) :: t) d = lastVal x t (if k == x then v else d) := rfl

theorem keysInOrder_cons (k : String) (v : Section)
    (t : List (String × Section)) :
    keysInOrder ((k, v) :: t)
      = k :: (keysInOrder t).filter (fun a => !(a == k)) := rfl

theorem foldl_objSet_spec :
    ∀ (t m : List (String × Section)),
      List.foldl (fun acc p => objSet acc p.1 p.2) m t
        = m.map (fun p => (p.1, lastVal p.1 t p.2))
          ++ (keysInOrder (t.filter
                (fun q => !(m.any (fun p => p.1 == q.1))))).map
              (fun a => (a, lastVal a t []))
  | [], m => by
    simp [keysInOrder, lastVal]
  | (k, v) :: t', m => by
    rw [List.foldl_cons, foldl_objSet_spec t' (objSet m k v)]
    by_cases hmem : m.any (fun p => p.1 == k) = true
    · have hobj : objSet m k v
          = m.map (fun p => if p.1 == k then (p.1, v) else p) := by
        unfold objSet
        rw [if_pos hmem]
      have hkeys : ∀ x : String,
          (objSet m k v).any (fun p => p.1 == x)
            = m.any (fun p => p.1 == x) := by
        intro x
        rw [hobj, List.any_map]
        congr 1
        funext q
        by_cases hq : q.1 = k <;> simp [Function.comp, hq]
      congr 1
      · rw [hobj, List.map_map]
        apply List.map_congr_left
        intro p _
        by_cases hpk : p.1 = k
        · simp [Function.comp, hpk, lastVal_cons]
        · simp [Function.comp, hpk, lastVal_cons, Ne.symm hpk]
      · rw [show ((k, v) :: t').filter (fun q => !(m.any fun p => p.1 == q.1))
            = t'.filter (fun q => !(m.any fun p => p.1 == q.1)) from by
          simp [List.filter_cons, hmem]]
        rw [show t'.filter
              (fun q => !((objSet m k v).any fun p => p.1 == q.1))
            = t'.filter (fun q => !(m.any fun p => p.1 == q.1)) from by
          apply List.filter_congr
          intro q _
          rw [hkeys q.1]]
        apply List.map_congr_left
        intro a ha
        have hamem := mem_keysInOrder _ a ha
        rw [List.mem_map] at hamem
        obtain ⟨q, hq1, hq2⟩ := hamem
        have hq3 := (List.mem_filter.mp hq1).2
        rw [hq2] at hq3
        have hak : a ≠ k := by
          intro hcon
          rw [hcon, hmem] at hq3
          simp at hq3
        simp [lastVal_cons, Ne.symm hak]
    · have hmem' : m.any (fun p => p.1 == k) = false :=
        Bool.eq_false_iff.mpr hmem
      have hobj : objSet m k v = m ++ [(k, v)] := by
        unfold objSet
        rw [if_neg hmem]
      have hnom : ∀ p ∈ m, (p.1 == k) = false := by
        intro p hp
        exact Bool.eq_false_iff.mpr
          (fun hcon => (List.any_eq_false.mp hmem' p hp) hcon)
      rw [hobj, List.map_append]
      rw [show ([(k, v)] : List (String × Section)).map
            (fun p => (p.1, lastVal p.1 t' p.2))
          = [(k, lastVal k t' v)] from rfl]
      rw [show t'.filter
            (fun q => !((m ++ [(k, v)]).any fun p => p.1 == q.1))
          = (t'.filter (fun q => !(m.any fun p => p.1 == q.1))).filter
              (fun q => !(q.1 == k)) from by
        rw [List.filter_filter]
        apply List.filter_congr
        intro q _
        simp [List.any_append, Bool.not_or, Bool.and_comm]
        congr 1
        by_cases hq : q.1 = k
        · rw [hq]
        · simp [hq, Ne.symm hq]]
      rw [show ((k, v) :: t').filter (fun q => !(m.any fun p => p.1 == q.1))
          = (k, v) :: t'.filter (fun q => !(m.any fun p => p.1 == q.1))
          from by
        simp [List.filter_cons, hmem']]
      rw [keysInOrder_cons]
      rw [show (t'.filter (fun q => !(m.any fun p => p.1 == q.1))).filter
            (fun q => !(q.1 == k))
          = (t'.filter (fun q => !(m.any fun p => p.1 == q.1))).filter
              (fun q => (fun a => !(a == k)) q.1) from rfl]
      rw [keysInOrder_filter (fun a => !(a == k))
        (t'.filter (fun q => !(m.any fun p => p.1 == q.1)))]
      rw [List.map_cons, List.append_assoc, List.singleton_append]
      congr 1
      · apply List.map_congr_left
        intro p hp
        have hpk : p.1 ≠ k := by
          intro hcon
          have := hnom p hp
          rw [hcon] at this
          simp at this
        simp [lastVal_cons, Ne.symm hpk]
      · congr 1
        · simp [lastVal_cons]
        · apply List.map_congr_left
          intro a ha
          have hak := (List.mem_filter.mp ha).2
          have hak' : a ≠ k := by
            intro hcon
            rw [hcon] at hak
            simp at hak
          simp [lastVal_cons, Ne.symm hak']

theorem jsObjEntries_id {α : Type} (m : List (String × α))
    (h : ∀ p ∈ m, isArrayIndexStr p.1 = false) :
    jsObjEntries m = m := by
  unfold jsObjEntries
  rw [show m.filter (fun p => isArrayIndexStr p.1) = [] from by
    rw [List.filter_eq_nil_iff]
    intro p hp
    simp [h p hp]]
  rw [show m.filter (fun p => ¬ isArrayIndexStr p.1) = m from by
    rw [List.filter_eq_self]
    intro p hp
    simp [h p hp]]
  rfl

/-- C1 amended: with validation on or off, the parsed document lists each
distinct committed section name once, in order of first appearance, with the
data of its last commit (JS object insertion semantics; names that look like
array indices are excluded by hypothesis). -/
theorem c1_section_order_amended (content : String) (b : Bool)
    (h : ∀ p ∈ parseCommits content, isArrayIndexStr p.1 = false) :
    jsObjEntries (parseConfig content b).config
      = specFOLV (parseCommits content) := by
  have hcfg : (parseConfig content b).config
      = commitCurr (goLines b (jsSplit '\n' (extractIncludes content).2) 1
          ⟨[], none, [], []⟩) := rfl
  rw [hcfg, goLines_commits b (jsSplit '\n' (extractIncludes content).2) 1
    ⟨[], none, [], []⟩]
  show jsObjEntries
      (List.foldl (fun acc p => objSet acc p.1 p.2) []
        (parseCommits content)) = _
  rw [foldl_objSet_spec]
  simp only [List.map_nil, List.nil_append, List.any_nil, Bool.not_false,
    List.filter_true]
  rw [specFOLV]
  apply jsObjEntries_id
  intro p hp
  rw [List.mem_map] at hp
  obtain ⟨a, ha, rfl⟩ := hp
  have hmem := mem_keysInOrder _ a ha
  rw [List.mem_map] at hmem
  obtain ⟨q, hq, hq2⟩ := hmem
  have hiq := h q hq
  rw [hq2] at hiq
  exact hiq

theorem c1_section_order_amended_witness :
    (∀ p ∈ parseCommits "[b]\nx: 1\n[a]\n[b]\ny: 2",
        isArrayIndexStr p.1 = false) ∧
    jsObjEntries (parseConfig "[b]\nx: 1\n[a]\n[b]\ny: 2" true).config
      = specFOLV (parseCommits "[b]\nx: 1\n[a]\n[b]\ny: 2") :=
  ⟨by decide, c1_section_order_amended "[b]\nx: 1\n[a]\n[b]\ny: 2" true
    (by decide)⟩


theorem takeWhile_append_ff (p : Char → Bool) :
    ∀ (l1 l2 : List Char), l1.all p = false →
      (l1 ++ l2).takeWhile p = l1.takeWhile p := by
  intro l1
  induction l1 with
  | nil => intro l2 h; simp at h
  | cons c t ih =>
    intro l2 h
    rw [List.all_cons, Bool.and_eq_false_iff] at h
    rcases h with h | h
    · simp [List.takeWhile_cons, h]
    · by_cases hc : p c = true
      · simp [List.takeWhile_cons, hc, ih l2 h]
      · rw [Bool.not_eq_true] at hc
        simp [List.takeWhile_cons, hc]

theorem takeWhile_append_tt (p : Char → Bool) :
    ∀ (l1 l2 : List Char), l1.all p = true →
      (l1 ++ l2).takeWhile p = l1 ++ l2.takeWhile p := by
  intro l1
  induction l1 with
  | nil => intro l2 _; simp
  | cons c t ih =>
    intro l2 h
    rw [List.all_cons, Bool.and_eq_true] at h
    simp [List.takeWhile_cons, h.1, ih l2 h.2]

theorem findIdx_append_ff (p : Char → Bool) :
    ∀ (l1 l2 : List Char) (i : Nat), (∀ c ∈ l1, p c = false) →
      (l1 ++ l2).findIdx? p i = l2.findIdx? p (i + l1.length)
  | [], l2, i, _ => by simp
  | c :: t, l2, i, h => by
    rw [List.cons_append, List.findIdx?_cons, h c (by simp)]
    simp only [Bool.false_eq_true, if_false]
    rw [findIdx_append_ff p t l2 (i + 1)
      (fun d hd => h d (List.mem_cons_of_mem c hd))]
    rw [show i + 1 + t.length = i + (c :: t).length from by
      rw [List.length_cons]; omega]

theorem findIdx_none_of_ff (p : Char → Bool) :
    ∀ (l : List Char) (i : Nat), (∀ c ∈ l, p c = false) →
      l.findIdx? p i = none
  | [], i, _ => List.findIdx?_nil
  | c :: t, i, h => by
    rw [List.findIdx?_cons, h c (by simp)]
    simp only [Bool.false_eq_true, if_false]
    exact findIdx_none_of_ff p t (i + 1)
      (fun d hd => h d (List.mem_cons_of_mem c hd))

theorem tailConsume_alone (X : List Char)
    (hX : ∀ c ∈ X, isLineTerm c = false) :
    tailConsume X = if X.all isJsWs then some [] else none := by
  unfold tailConsume
  by_cases hall : X.all isJsWs = true
  · rw [hall]
    simp only [if_true]
    rw [show X.takeWhile isJsWs = X from
      List.takeWhile_eq_self_iff.mpr (fun a ha => List.all_eq_true.mp hall a ha)]
    simp
  · rw [Bool.not_eq_true] at hall
    rw [hall]
    simp only [Bool.false_eq_true, if_false]
    have hne : X.takeWhile isJsWs ≠ X := by
      intro hcon
      have h2 : X.all isJsWs = true :=
        List.all_eq_true.mpr (List.takeWhile_eq_self_iff.mp hcon)
      rw [h2] at hall
      exact absurd hall (by decide)
    have hlt : (X.takeWhile isJsWs).length < X.length := by
      have h1 : (X.takeWhile isJsWs).length ≤ X.length :=
        (List.takeWhile_sublist isJsWs).length_le
      rcases lt_or_eq_of_le h1 with h2 | h2
      · exact h2
      · exact absurd ((List.takeWhile_prefix isJsWs).eq_of_length h2) hne
    rw [if_neg (by omega)]
    rw [findIdx_none_of_ff isLineTerm _ 0 (fun c hc => by
      rw [List.mem_reverse] at hc
      exact hX c ((List.takeWhile_sublist isJsWs).mem hc))]

theorem tailConsume_app_none (X : List Char) (rest : List Char)
    (hX : ∀ c ∈ X, isLineTerm c = false)
    (hall : X.all isJsWs = false) :
    tailConsume (X ++ '\n' :: rest) = none := by
  unfold tailConsume
  rw [takeWhile_append_ff isJsWs X ('\n' :: rest) hall]
  have hlt : (X.takeWhile isJsWs).length ≤ X.length :=
    (List.takeWhile_sublist isJsWs).length_le
  rw [if_neg (by
    rw [List.length_append, List.length_cons]
    omega)]
  rw [findIdx_none_of_ff isLineTerm _ 0 (fun c hc => by
    rw [List.mem_reverse] at hc
    exact hX c ((List.takeWhile_sublist isJsWs).mem hc))]

theorem tailConsume_app_some (X : List Char) (rest : List Char)
    (hall : X.all isJsWs = true)
    (hP : ∀ c ∈ rest.takeWhile isJsWs, isLineTerm c = false)
    (hPr : rest.takeWhile isJsWs ≠ rest) :
    tailConsume (X ++ '\n' :: rest) = some ('\n' :: rest) := by
  unfold tailConsume
  rw [takeWhile_append_tt isJsWs X ('\n' :: rest) hall]
  rw [show ('\n' :: rest).takeWhile isJsWs = '\n' :: rest.takeWhile isJsWs from by
    simp [List.takeWhile_cons, show isJsWs '\n' = true from rfl]]
  have hPlt : (rest.takeWhile isJsWs).length < rest.length := by
    have h1 : (rest.takeWhile isJsWs).length ≤ rest.length :=
      (List.takeWhile_sublist isJsWs).length_le
    rcases lt_or_eq_of_le h1 with h2 | h2
    · exact h2
    · exact absurd ((List.takeWhile_prefix isJsWs).eq_of_length h2) hPr
  rw [if_neg (by
    rw [List.length_append, List.length_append, List.length_cons,
      List.length_cons]
    omega)]
  rw [List.reverse_append, List.reverse_cons]
  rw [show (rest.takeWhile isJsWs).reverse ++ ['\n'] ++ X.reverse
      = (rest.takeWhile isJsWs).reverse ++ ('\n' :: X.reverse) from by
    simp]
  rw [findIdx_append_ff isLineTerm _ _ 0 (fun c hc => by
    rw [List.mem_reverse] at hc
    exact hP c hc)]
  rw [List.findIdx?_cons]
  rw [show isLineTerm '\n' = true from rfl]
  simp only [if_true]
  rw [show (0 + (rest.takeWhile isJsWs).reverse.length)
      = (rest.takeWhile isJsWs).length from by simp]
  rw [List.length_append, List.length_cons]
  rw [show X.length + ((rest.takeWhile isJsWs).length + 1) - 1 -
        (rest.takeWhile isJsWs).length = X.length from by omega]
  rw [List.drop_left]

theorem isPrefixOf_append_right (P l X : List Char)
    (h : P.isPrefixOf l = true) : P.isPrefixOf (l ++ X) = true := by
  rw [List.isPrefixOf_iff_prefix] at h ⊢
  exact h.trans (List.prefix_append l X)

theorem captureSearch_alone :
    ∀ (X : List Char) (acc : List Char),
      (∀ c ∈ X, isLineTerm c = false) →
      captureSearch acc X = none ∨
        ∃ cap, captureSearch acc X = some (cap, [])
  | [], _, _ => Or.inl rfl
  | c :: X', acc, h => by
    rw [captureSearch]
    have hc : isLineTerm c = false := h c (by simp)
    rw [hc]
    simp only [Bool.false_eq_true, if_false]
    have h' : ∀ d ∈ X', isLineTerm d = false :=
      fun d hd => h d (List.mem_cons_of_mem c hd)
    by_cases hbr : c = ']' ∧ acc ≠ []
    · rw [if_pos hbr]
      rw [tailConsume_alone X' h']
      by_cases hall : X'.all isJsWs = true
      · rw [hall]
        simp only [if_true]
        exact Or.inr ⟨acc.reverse, rfl⟩
      · rw [Bool.not_eq_true] at hall
        rw [hall]
        simp only [Bool.false_eq_true, if_false]
        exact captureSearch_alone X' (c :: acc) h'
    · rw [if_neg hbr]
      exact captureSearch_alone X' (c :: acc) h'

theorem captureSearch_app_none (rest : List Char) :
    ∀ (X : List Char) (acc : List Char),
      (∀ c ∈ X, isLineTerm c = false) →
      captureSearch acc X = none →
      captureSearch acc (X ++ '\n' :: rest) = none
  | [], acc, _, _ => by
    rw [List.nil_append, captureSearch]
    rw [if_pos (show isLineTerm '\n' = true from rfl)]
  | c :: X', acc, h, hnone => by
    have hc : isLineTerm c = false := h c (by simp)
    have h' : ∀ d ∈ X', isLineTerm d = false :=
      fun d hd => h d (List.mem_cons_of_mem c hd)
    rw [captureSearch, hc] at hnone
    simp only [Bool.false_eq_true, if_false] at hnone
    rw [List.cons_append, captureSearch, hc]
    simp only [Bool.false_eq_true, if_false]
    by_cases hbr : c = ']' ∧ acc ≠ []
    · rw [if_pos hbr] at hnone ⊢
      rw [tailConsume_alone X' h'] at hnone
      by_cases hall : X'.all isJsWs = true
      · rw [hall] at hnone
        simp at hnone
      · rw [Bool.not_eq_true] at hall
        rw [hall] at hnone
        simp only [Bool.false_eq_true, if_false] at hnone
        rw [tailConsume_app_none X' rest h' hall]
        exact captureSearch_app_none rest X' (c :: acc) h' hnone
    · rw [if_neg hbr] at hnone ⊢
      exact captureSearch_app_none rest X' (c :: acc) h' hnone

theorem captureSearch_app_some (rest : List Char)
    (hP : ∀ c ∈ rest.takeWhile isJsWs, isLineTerm c = false)
    (hPr : rest.takeWhile isJsWs ≠ rest) :
    ∀ (X : List Char) (acc cap rem : List Char),
      (∀ c ∈ X, isLineTerm c = false) →
      captureSearch acc X = some (cap, rem) →
      captureSearch acc (X ++ '\n' :: rest) = some (cap, '\n' :: rest)
  | [], acc, cap, rem, _, hsome => by
    rw [captureSearch] at hsome
    exact absurd hsome (by simp)
  | c :: X', acc, cap, rem, h, hsome => by
    have hc : isLineTerm c = false := h c (by simp)
    have h' : ∀ d ∈ X', isLineTerm d = false :=
      fun d hd => h d (List.mem_cons_of_mem c hd)
    rw [captureSearch, hc] at hsome
    simp only [Bool.false_eq_true, if_false] at hsome
    rw [List.cons_append, captureSearch, hc]
    simp only [Bool.false_eq_true, if_false]
    by_cases hbr : c = ']' ∧ acc ≠ []
    · rw [if_pos hbr] at hsome ⊢
      rw [tailConsume_alone X' h'] at hsome
      by_cases hall : X'.all isJsWs = true
      · rw [hall] at hsome
        simp only [if_true] at hsome
        rw [tailConsume_app_some X' rest hall hP hPr]
        injection hsome with h1
        injection h1 with h2 h3
        rw [h2]
      · rw [Bool.not_eq_true] at hall
        rw [hall] at hsome
        simp only [Bool.false_eq_true, if_false] at hsome
        rw [tailConsume_app_none X' rest h' hall]
        exact captureSearch_app_some rest hP hPr X' (c :: acc) cap rem h' hsome
    · rw [if_neg hbr] at hsome ⊢
      exact captureSearch_app_some rest hP hPr X' (c :: acc) cap rem h' hsome

theorem wsLoop_alone :
    ∀ (i : Nat) (A : List Char),
      (∀ c ∈ A, isLineTerm c = false) →
      wsLoop A i = none ∨ ∃ cap, wsLoop A i = some (cap, [])
  | 0, _, _ => Or.inl rfl
  | i + 1, A, h => by
    rw [wsLoop]
    have hd : ∀ c ∈ A.drop (i + 1), isLineTerm c = false :=
      fun c hc => h c (List.mem_of_mem_drop hc)
    rcases captureSearch_alone (A.drop (i + 1)) [] hd with hn | ⟨cap, hs⟩
    · rw [hn]
      exact wsLoop_alone i A h
    · rw [hs]
      exact Or.inr ⟨cap, rfl⟩

theorem wsLoop_app_none (rest : List Char) :
    ∀ (i : Nat) (A : List Char),
      (∀ c ∈ A, isLineTerm c = false) → i ≤ A.length →
      wsLoop A i = none →
      wsLoop (A ++ '\n' :: rest) i = none
  | 0, _, _, _, _ => rfl
  | i + 1, A, h, hle, hnone => by
    have hd : ∀ c ∈ A.drop (i + 1), isLineTerm c = false :=
      fun c hc => h c (List.mem_of_mem_drop hc)
    rw [wsLoop] at hnone
    rw [wsLoop, List.drop_append_of_le_length hle]
    cases hcs : captureSearch [] (A.drop (i + 1)) with
    | some r =>
      rw [hcs] at hnone
      exact absurd hnone (by simp)
    | none =>
      rw [hcs] at hnone
      rw [captureSearch_app_none rest (A.drop (i + 1)) [] hd hcs]
      exact wsLoop_app_none rest i A h (by omega) hnone

theorem wsLoop_app_some (rest : List Char)
    (hP : ∀ c ∈ rest.takeWhile isJsWs, isLineTerm c = false)
    (hPr : rest.takeWhile isJsWs ≠ rest) :
    ∀ (i : Nat) (A : List Char) (cap rem : List Char),
      (∀ c ∈ A, isLineTerm c = false) → i ≤ A.length →
      wsLoop A i = some (cap, rem) →
      wsLoop (A ++ '\n' :: rest) i = some (cap, '\n' :: rest)
  | 0, _, _, _, _, _, hsome => absurd hsome (by simp [wsLoop])
  | i + 1, A, cap, rem, h, hle, hsome => by
    have hd : ∀ c ∈ A.drop (i + 1), isLineTerm c = false :=
      fun c hc => h c (List.mem_of_mem_drop hc)
    rw [wsLoop] at hsome
    rw [wsLoop, List.drop_append_of_le_length hle]
    cases hcs : captureSearch [] (A.drop (i + 1)) with
    | some r =>
      rw [hcs] at hsome
      simp only at hsome
      injection hsome with h1
      rw [captureSearch_app_some rest hP hPr (A.drop (i + 1)) [] r.1 r.2 hd
        (by rw [hcs])]
      rw [h1]
    | none =>
      rw [hcs] at hsome
      rw [captureSearch_app_none rest (A.drop (i + 1)) [] hd hcs]
      exact wsLoop_app_some rest hP hPr i A cap rem h (by omega) hsome

theorem matchInclude_alone_rem (l : List Char)
    (hl : ∀ c ∈ l, isLineTerm c = false) (cap rem : List Char)
    (hm : matchInclude l = some (cap, rem)) : rem = [] := by
  unfold matchInclude at hm
  by_cases hpre : "[include".data.isPrefixOf l = true
  · rw [if_pos hpre] at hm
    dsimp only at hm
    rcases wsLoop_alone ((l.drop 8).takeWhile isJsWs).length (l.drop 8)
        (fun c hc => hl c (List.mem_of_mem_drop hc)) with hn | ⟨cap', hs⟩
    · rw [hn] at hm
      exact absurd hm (by simp)
    · rw [hs] at hm
      injection hm with h1
      injection h1 with h2 h3
      exact h3.symm
  · rw [Bool.not_eq_true] at hpre
    rw [hpre] at hm
    simp only [Bool.false_eq_true, if_false] at hm
    exact absurd hm (by simp)

theorem matchInclude_app_none (l : List Char) (rest : List Char)
    (hl : ∀ c ∈ l, isLineTerm c = false)
    (hnw : "[include".data.isPrefixOf l = true →
      (l.drop 8).any (fun c => !isJsWs c) = true)
    (hm : matchInclude l = none) :
    matchInclude (l ++ '\n' :: rest) = none := by
  unfold matchInclude at hm ⊢
  by_cases hpre : "[include".data.isPrefixOf l = true
  · have h8 : 8 ≤ l.length := by
      have := (List.isPrefixOf_iff_prefix.mp hpre).length_le
      simpa using this
    rw [if_pos hpre] at hm
    dsimp only at hm
    rw [if_pos (isPrefixOf_append_right _ l ('\n' :: rest) hpre)]
    dsimp only
    rw [List.drop_append_of_le_length h8]
    have hallf : (l.drop 8).all isJsWs = false := by
      rcases List.any_eq_true.mp (hnw hpre) with ⟨c, hc1, hc2⟩
      rw [Bool.not_eq_true'] at hc2
      by_contra hcon
      rw [Bool.not_eq_false, List.all_eq_true] at hcon
      rw [hcon c hc1] at hc2
      exact absurd hc2 (by decide)
    rw [takeWhile_append_ff isJsWs (l.drop 8) ('\n' :: rest) hallf]
    exact wsLoop_app_none rest _ (l.drop 8)
      (fun c hc => hl c (List.mem_of_mem_drop hc))
      (List.takeWhile_sublist isJsWs).length_le hm
  · rw [Bool.not_eq_true] at hpre
    rw [include_prefix_append_nl l rest hpre]
    simp only [Bool.false_eq_true, if_false]

theorem matchInclude_app_some (l : List Char) (rest : List Char)
    (hl : ∀ c ∈ l, isLineTerm c = false)
    (hnw : "[include".data.isPrefixOf l = true →
      (l.drop 8).any (fun c => !isJsWs c) = true)
    (hP : ∀ c ∈ rest.takeWhile isJsWs, isLineTerm c = false)
    (hPr : rest.takeWhile isJsWs ≠ rest)
    (cap rem : List Char)
    (hm : matchInclude l = some (cap, rem)) :
    matchInclude (l ++ '\n' :: rest) = some (cap, '\n' :: rest) := by
  unfold matchInclude at hm ⊢
  by_cases hpre : "[include".data.isPrefixOf l = true
  · have h8 : 8 ≤ l.length := by
      have := (List.isPrefixOf_iff_prefix.mp hpre).length_le
      simpa using this
    rw [if_pos hpre] at hm
    dsimp only at hm
    rw [if_pos (isPrefixOf_append_right _ l ('\n' :: rest) hpre)]
    dsimp only
    rw [List.drop_append_of_le_length h8]
    have hallf : (l.drop 8).all isJsWs = false := by
      rcases List.any_eq_true.mp (hnw hpre) with ⟨c, hc1, hc2⟩
      rw [Bool.not_eq_true'] at hc2
      by_contra hcon
      rw [Bool.not_eq_false, List.all_eq_true] at hcon
      rw [hcon c hc1] at hc2
      exact absurd hc2 (by decide)
    rw [takeWhile_append_ff isJsWs (l.drop 8) ('\n' :: rest) hallf]
    exact wsLoop_app_some rest hP hPr _ (l.drop 8) cap rem
      (fun c hc => hl c (List.mem_of_mem_drop hc))
      (List.takeWhile_sublist isJsWs).length_le hm
  · rw [Bool.not_eq_true] at hpre
    rw [hpre] at hm
    simp only [Bool.false_eq_true, if_false] at hm
    exact absurd hm (by simp)

theorem scanInc_nil (f : Nat) (ls : Bool) (ai : List String)
    (ac : List Char) : scanInc f [] ls ai ac = (ai.reverse, ac.reverse) := by
  cases f <;> rfl

theorem matchInclude_some_prefix (cs : List Char)
    (pr : List Char × List Char) (hm : matchInclude cs = some pr) :
    "[include".data.isPrefixOf cs = true := by
  by_contra hc
  rw [Bool.not_eq_true] at hc
  unfold matchInclude at hm
  rw [hc] at hm
  simp only [Bool.false_eq_true, if_false] at hm
  exact absurd hm (by simp)

theorem scanInc_step_match (f : Nat) (c : Char) (cs : List Char)
    (ai : List String) (ac : List Char) (cap rem : List Char)
    (hm : matchInclude (c :: cs) = some (cap, rem)) :
    scanInc (f + 1) (c :: cs) true ai ac
      = scanInc f rem false
          (if jsTrim ⟨cap⟩ = "" then ai else jsTrim ⟨cap⟩ :: ai) ac := by
  rw [scanInc]
  simp only [if_true]
  rw [hm]

theorem scanInc_chunk :
    ∀ (u : List Char) (c : Char) (f : Nat) (tail : List Char) (ls : Bool)
      (ai : List String) (ac : List Char),
      (∀ d ∈ c :: u, isLineTerm d = false) →
      (ls = true → matchInclude (c :: (u ++ tail)) = none) →
      scanInc (f + (u.length + 1)) (c :: (u ++ tail)) ls ai ac
        = scanInc f tail false ai ((c :: u).reverse ++ ac)
  | [], c, f, tail, ls, ai, ac, hd, hm => by
    simp only [List.length_nil, Nat.zero_add, List.nil_append]
    simp only [List.nil_append] at hm
    cases ls with
    | true =>
      rw [scanInc]
      simp only [if_true]
      rw [hm rfl, hd c (by simp)]
      simp
    | false =>
      rw [scanInc]
      simp only [Bool.false_eq_true, if_false]
      rw [hd c (by simp)]
      simp
  | d :: u', c, f, tail, ls, ai, ac, hd, hm => by
    have hstep : scanInc (f + ((d :: u').length + 1))
        (c :: (d :: u' ++ tail)) ls ai ac
        = scanInc (f + (u'.length + 1)) (d :: (u' ++ tail)) false ai
            (c :: ac) := by
      rw [show f + ((d :: u').length + 1) = (f + (u'.length + 1)) + 1 from by
        rw [List.length_cons]; omega]
      cases ls with
      | true =>
        rw [scanInc]
        simp only [if_true]
        rw [hm rfl, hd c (by simp)]
        rfl
      | false =>
        rw [scanInc]
        simp only [Bool.false_eq_true, if_false]
        rw [hd c (by simp)]
        rfl
    rw [hstep]
    rw [scanInc_chunk u' d (f := f) tail false ai (c :: ac)
      (fun e he => hd e (by
        rcases List.mem_cons.mp he with rfl | he2
        · exact List.mem_cons_of_mem c (by simp)
        · exact List.mem_cons_of_mem c (List.mem_cons_of_mem d he2)))
      (fun hcon => absurd hcon (by decide))]
    rw [show (c :: d :: u').reverse = (d :: u').reverse ++ [c] from by
      simp]
    rw [List.append_assoc, List.singleton_append]

theorem goodLines_head (x : String) (xs : List String)
    (h : goodLines (x :: xs)) : lineOk x := by
  cases xs with
  | nil => exact h
  | cons y ys => exact h.1

theorem all_false_of_any_not (p : Char → Bool) (l : List Char)
    (h : l.any (fun c => !p c) = true) : l.all p = false := by
  rcases List.any_eq_true.mp h with ⟨c, hc1, hc2⟩
  rw [Bool.not_eq_true'] at hc2
  by_contra hcon
  rw [Bool.not_eq_false, List.all_eq_true] at hcon
  rw [hcon c hc1] at hc2
  exact absurd hc2 (by decide)

theorem linesChars_cons_cons (x y : String) (xs : List String) :
    linesChars (x :: y :: xs) = x.data ++ '\n' :: linesChars (y :: xs) := rfl

theorem blankIncs_cons (x : String) (xs : List String) :
    blankIncs (x :: xs)
      = (if (matchInclude x.data).isSome then "" else x) :: blankIncs xs := rfl

theorem incPath_none (l : String) (hm : matchInclude l.data = none) :
    incPath l = none := by
  unfold incPath
  rw [hm]

theorem incPath_some (l : String) (cap rem : List Char)
    (hm : matchInclude l.data = some (cap, rem)) :
    incPath l = if jsTrim ⟨cap⟩ = "" then none else some (jsTrim ⟨cap⟩) := by
  unfold incPath
  rw [hm]

theorem incsOf_cons_none (l : String) (L : List String)
    (h : incPath l = none) : incsOf (l :: L) = incsOf L := by
  unfold incsOf
  rw [List.filterMap_cons, h]

theorem incsOf_cons_some (l : String) (L : List String) (p : String)
    (h : incPath l = some p) : incsOf (l :: L) = p :: incsOf L := by
  unfold incsOf
  rw [List.filterMap_cons, h]

theorem linesChars_follow (l2 : String) (rest : List String)
    (hlt : ∀ c ∈ l2.data, isLineTerm c = false)
    (hnw : l2.data.any (fun c => !isJsWs c) = true) :
    (∀ c ∈ (linesChars (l2 :: rest)).takeWhile isJsWs,
        isLineTerm c = false) ∧
    (linesChars (l2 :: rest)).takeWhile isJsWs ≠ linesChars (l2 :: rest) := by
  have hall : l2.data.all isJsWs = false :=
    all_false_of_any_not isJsWs l2.data hnw
  cases rest with
  | nil =>
    refine ⟨fun c hc => hlt c ((List.takeWhile_sublist isJsWs).mem hc), ?_⟩
    show l2.data.takeWhile isJsWs ≠ l2.data
    intro hcon
    have h2 : l2.data.all isJsWs = true :=
      List.all_eq_true.mpr (List.takeWhile_eq_self_iff.mp hcon)
    rw [h2] at hall
    exact absurd hall (by decide)
  | cons r rs =>
    rw [linesChars_cons_cons]
    rw [takeWhile_append_ff isJsWs _ _ hall]
    refine ⟨fun c hc => hlt c ((List.takeWhile_sublist isJsWs).mem hc), ?_⟩
    intro hcon
    have hlen1 : (l2.data.takeWhile isJsWs).length ≤ l2.data.length :=
      (List.takeWhile_sublist isJsWs).length_le
    have hlen2 : (l2.data.takeWhile isJsWs).length
        = (l2.data ++ '\n' :: linesChars (r :: rs)).length := by rw [hcon]
    rw [List.length_append, List.length_cons] at hlen2
    omega

theorem scanInc_lines :
    ∀ (L : List String), goodLines L →
    ∀ (f : Nat) (ai : List String) (ac : List Char),
      (linesChars L).length ≤ f →
      scanInc f (linesChars L) true ai ac
        = (ai.reverse ++ incsOf L, ac.reverse ++ linesChars (blankIncs L))
  | [], _, f, ai, ac, _ => by
    rw [show linesChars [] = [] from rfl, scanInc_nil]
    simp [incsOf, blankIncs, linesChars]
  | [l], hg, f, ai, ac, hf => by
    have hok : lineOk l := hg
    cases hm : matchInclude l.data with
    | some capRem =>
      have hpre := matchInclude_some_prefix l.data capRem hm
      cases hld : l.data with
      | nil =>
        rw [hld] at hpre
        exact absurd hpre (by decide)
      | cons c u =>
        have hrem : capRem.2 = [] :=
          matchInclude_alone_rem l.data hok.1 capRem.1 capRem.2 (by rw [hm])
        rw [show linesChars [l] = l.data from rfl, hld] at hf ⊢
        rw [List.length_cons] at hf
        obtain ⟨f1, rfl⟩ : ∃ f1, f = f1 + 1 := ⟨f - 1, by omega⟩
        rw [scanInc_step_match f1 c u ai ac capRem.1 capRem.2
          (by rw [← hld, hm])]
        rw [hrem, scanInc_nil]
        rw [show blankIncs [l] = [""] from by
          unfold blankIncs
          rw [List.map_cons, hm]
          rfl]
        rw [show linesChars [""] = [] from rfl]
        by_cases hp : jsTrim ⟨capRem.1⟩ = ""
        · rw [if_pos hp]
          rw [incsOf_cons_none l []
            (by rw [incPath_some l capRem.1 capRem.2 (by rw [hm]), if_pos hp])]
          simp [incsOf]
        · rw [if_neg hp]
          rw [incsOf_cons_some l [] (jsTrim ⟨capRem.1⟩)
            (by rw [incPath_some l capRem.1 capRem.2 (by rw [hm]), if_neg hp])]
          simp [incsOf]
    | none =>
      cases hld : l.data with
      | nil =>
        rw [show linesChars [l] = l.data from rfl, hld, scanInc_nil]
        rw [incsOf_cons_none l [] (incPath_none l hm)]
        rw [show blankIncs [l] = [l] from by
          unfold blankIncs
          rw [List.map_cons, hm]
          rfl]
        rw [show linesChars [l] = l.data from rfl, hld]
        simp [incsOf]
      | cons c u =>
        rw [show linesChars [l] = l.data from rfl, hld] at hf ⊢
        rw [List.length_cons] at hf
        obtain ⟨f1, rfl⟩ : ∃ f1, f = f1 + (u.length + 1) :=
          ⟨f - (u.length + 1), by omega⟩
        have hchunk := scanInc_chunk u c f1 [] true ai ac
          (fun d hdm => hok.1 d (by rw [hld]; exact hdm))
          (fun _ => by rw [List.append_nil, ← hld]; exact hm)
        rw [List.append_nil] at hchunk
        rw [hchunk, scanInc_nil]
        rw [incsOf_cons_none l [] (incPath_none l hm)]
        rw [show blankIncs [l] = [l] from by
          unfold blankIncs
          rw [List.map_cons, hm]
          rfl]
        rw [show linesChars [l] = l.data from rfl, hld]
        simp [incsOf, List.reverse_append, List.append_assoc]
  | l :: l2 :: rest, hg, f, ai, ac, hf => by
    have hok : lineOk l := hg.1
    have hok2 : lineOk l2 := goodLines_head l2 rest hg.2.2
    rw [linesChars_cons_cons] at hf ⊢
    cases hm : matchInclude l.data with
    | some capRem =>
      have hpre := matchInclude_some_prefix l.data capRem hm
      have hfol : l2.data.any (fun c => !isJsWs c) = true :=
        hg.2.1 (by rw [hm]; rfl)
      obtain ⟨hP, hPr⟩ := linesChars_follow l2 rest hok2.1 hfol
      have happ : matchInclude (l.data ++ '\n' :: linesChars (l2 :: rest))
          = some (capRem.1, '\n' :: linesChars (l2 :: rest)) :=
        matchInclude_app_some l.data _ hok.1 hok.2 hP hPr capRem.1 capRem.2
          (by rw [hm])
      cases hld : l.data with
      | nil =>
        rw [hld] at hpre
        exact absurd hpre (by decide)
      | cons c u =>
        rw [hld] at hf
        rw [List.length_append, List.length_cons, List.length_cons] at hf
        rw [List.cons_append]
        obtain ⟨f1, rfl⟩ : ∃ f1, f = f1 + 1 := ⟨f - 1, by omega⟩
        rw [hld, List.cons_append] at happ
        rw [scanInc_step_match f1 c (u ++ '\n' :: linesChars (l2 :: rest))
          ai ac capRem.1 ('\n' :: linesChars (l2 :: rest)) happ]
        obtain ⟨f2, rfl⟩ : ∃ f2, f1 = f2 + 1 := ⟨f1 - 1, by omega⟩
        rw [scanInc]
        simp only [Bool.false_eq_true, if_false]
        rw [show isLineTerm '\n' = true from rfl]
        rw [scanInc_lines (l2 :: rest) hg.2.2 f2 _ ('\n' :: ac) (by omega)]
        rw [blankIncs_cons l, hm]
        simp only [Option.isSome_some, if_true]
        rw [blankIncs_cons l2]
        rw [show linesChars (("" : String) ::
            (if (matchInclude l2.data).isSome then "" else l2) :: blankIncs rest)
          = '\n' :: linesChars
              ((if (matchInclude l2.data).isSome then "" else l2) ::
                blankIncs rest) from rfl]
        rw [← blankIncs_cons l2]
        by_cases hp : jsTrim ⟨capRem.1⟩ = ""
        · rw [if_pos hp]
          rw [incsOf_cons_none l _
            (by rw [incPath_some l capRem.1 capRem.2 (by rw [hm]), if_pos hp])]
          simp [List.append_assoc]
        · rw [if_neg hp]
          rw [incsOf_cons_some l _ (jsTrim ⟨capRem.1⟩)
            (by rw [incPath_some l capRem.1 capRem.2 (by rw [hm]), if_neg hp])]
          simp [List.append_assoc]
    | none =>
      have happ : matchInclude (l.data ++ '\n' :: linesChars (l2 :: rest))
          = none :=
        matchInclude_app_none l.data _ hok.1 hok.2 hm
      cases hld : l.data with
      | nil =>
        rw [hld] at hf happ
        rw [List.nil_append] at hf happ ⊢
        rw [List.length_cons] at hf
        obtain ⟨f1, rfl⟩ : ∃ f1, f = f1 + 1 := ⟨f - 1, by omega⟩
        rw [scanInc]
        simp only [if_true]
        rw [happ]
        rw [show isLineTerm '\n' = true from rfl]
        rw [scanInc_lines (l2 :: rest) hg.2.2 f1 ai ('\n' :: ac) (by omega)]
        rw [incsOf_cons_none l _ (incPath_none l hm)]
        rw [blankIncs_cons l, hm]
        simp only [Option.isSome_none, Bool.false_eq_true, if_false]
        rw [blankIncs_cons l2]
        rw [linesChars_cons_cons l]
        rw [← blankIncs_cons l2]
        rw [hld, List.nil_append]
        simp
      | cons c u =>
        rw [hld] at hf happ
        rw [List.length_append, List.length_cons, List.length_cons] at hf
        rw [List.cons_append] at happ ⊢
        obtain ⟨f1, rfl⟩ : ∃ f1, f = f1 + (u.length + 1) :=
          ⟨f - (u.length + 1), by omega⟩
        rw [scanInc_chunk u c f1 ('\n' :: linesChars (l2 :: rest)) true ai ac
          (fun d hdm => hok.1 d (by rw [hld]; exact hdm))
          (fun _ => happ)]
        obtain ⟨f2, rfl⟩ : ∃ f2, f1 = f2 + 1 := ⟨f1 - 1, by omega⟩
        rw [scanInc]
        simp only [Bool.false_eq_true, if_false]
        rw [show isLineTerm '\n' = true from rfl]
        rw [scanInc_lines (l2 :: rest) hg.2.2 f2 ai
          ('\n' :: ((c :: u).reverse ++ ac)) (by omega)]
        rw [incsOf_cons_none l _ (incPath_none l hm)]
        rw [blankIncs_cons l, hm]
        simp only [Option.isSome_none, Bool.false_eq_true, if_false]
        rw [blankIncs_cons l2]
        rw [linesChars_cons_cons l]
        rw [← blankIncs_cons l2]
        rw [hld]
        simp [List.reverse_append, List.append_assoc]

theorem extractIncludes_lines (L : List String) (h : goodLines L) :
    extractIncludes ⟨linesChars L⟩
      = (incsOf L, ⟨linesChars (blankIncs L)⟩) := by
  unfold extractIncludes
  rw [show (⟨linesChars L⟩ : String).data = linesChars L from rfl]
  rw [scanInc_lines L h (linesChars L).length [] [] le_rfl]
  rfl

/-- C6 amended: under the stated well-formedness of the physical lines (no
stray line terminators; no line reading `[include` followed by whitespace
only; every include-matching line followed by a line with a non-whitespace
character), include extraction is exactly per-line: it collects, in order of
appearance and with duplicates kept, the trimmed captured path of every line
the include pattern matches (skipping captures that trim to empty, without
error, though the line is still removed), and the cleaned text replaces each
matching line by an empty line; these are the includes parseConfig reports. -/
theorem c6_include_extraction_amended (L : List String) (b : Bool)
    (h : goodLines L) :
    (parseConfig ⟨linesChars L⟩ b).includes = incsOf L ∧
    extractIncludes ⟨linesChars L⟩
      = (incsOf L, ⟨linesChars (blankIncs L)⟩) := by
  have he := extractIncludes_lines L h
  refine ⟨?_, he⟩
  show (extractIncludes ⟨linesChars L⟩).1 = incsOf L
  rw [he]

theorem c6_include_extraction_amended_witness :
    goodLines ["[x]", "[include foo.cfg]", "a: 1", "[include  bar.cfg ]",
      "x y", "[include]", "[include  ]"] ∧
    (parseConfig ⟨linesChars ["[x]", "[include foo.cfg]", "a: 1",
        "[include  bar.cfg ]", "x y", "[include]", "[include  ]"]⟩
      true).includes
      = incsOf ["[x]", "[include foo.cfg]", "a: 1", "[include  bar.cfg ]",
          "x y", "[include]", "[include  ]"] ∧
    extractIncludes ⟨linesChars ["[x]", "[include foo.cfg]", "a: 1",
        "[include  bar.cfg ]", "x y", "[include]", "[include  ]"]⟩
      = (["foo.cfg", "bar.cfg"],
          "[x]\n\na: 1\n\nx y\n[include]\n") ∧
    incsOf ["[x]", "[include foo.cfg]", "a: 1", "[include  bar.cfg ]",
        "x y", "[include]", "[include  ]"]
      = ["foo.cfg", "bar.cfg"] :=
  have hc := c6_include_extraction_amended ["[x]", "[include foo.cfg]",
    "a: 1", "[include  bar.cfg ]", "x y", "[include]", "[include  ]"] true
    (by decide)
  ⟨by decide, hc.1, hc.2.trans (by rfl), by rfl⟩

theorem goodLines_all :
    ∀ (L : List String), goodLines L → ∀ l ∈ L, lineOk l
  | [], _, l, hl => absurd hl (by simp)
  | [x], hg, l, hl => by
    rcases List.mem_singleton.mp hl with rfl
    exact hg
  | x :: y :: rest, hg, l, hl => by
    rcases List.mem_cons.mp hl with rfl | h2
    · exact hg.1
    · exact goodLines_all (y :: rest) hg.2.2 l h2

theorem splitCh_linesChars :
    ∀ (M : List String), (∀ l ∈ M, '\n' ∉ l.data) →
      M ≠ [] → splitCh '\n' (linesChars M) = M.map String.data
  | [], _, hne => absurd rfl hne
  | [l], h, _ => by
    rw [show linesChars [l] = l.data from rfl]
    rw [splitCh_not_mem '\n' l.data (h l (by simp))]
    rfl
  | l :: l2 :: rest, h, _ => by
    rw [linesChars_cons_cons]
    rw [splitCh_append '\n' l.data (linesChars (l2 :: rest)) (h l (by simp))]
    rw [splitCh_linesChars (l2 :: rest)
      (fun x hx => h x (List.mem_cons_of_mem l hx)) (by simp)]
    rfl

theorem jsSplit_linesChars (M : List String)
    (h : ∀ l ∈ M, '\n' ∉ l.data) (hne : M ≠ []) :
    jsSplit '\n' ⟨linesChars M⟩ = M := by
  unfold jsSplit
  rw [show (⟨linesChars M⟩ : String).data = linesChars M from rfl]
  rw [splitCh_linesChars M h hne, List.map_map]
  conv_rhs => rw [← List.map_id M]
  apply List.map_congr_left
  intro a _
  rfl

theorem processLine_errs_shape (v : Bool) (n : Nat) (l : String)
    (st : PState) :
    ∃ F, (processLine v n l st).errs = st.errs ++ F ∧
      ∀ e ∈ F, ∃ m, e = lineMsg n m := by
  unfold processLine
  cases hsm : sectionMatch l with
  | some content =>
    dsimp only
    cases v with
    | false => exact ⟨[], by simp, by simp⟩
    | true =>
      cases hc : (if jsTrim content = "" then none
          else some (jsTrim content) : Option String) with
      | none => exact ⟨[], by simp [hc], by simp⟩
      | some nm =>
        cases hv : validateSectionName nm with
        | none => exact ⟨[], by simp [hc, hv], by simp⟩
        | some msg =>
          refine ⟨[lineMsg n msg], by simp [hc, hv], ?_⟩
          intro e he
          exact ⟨msg, by simpa using he⟩
  | none =>
    cases hc : st.curr with
    | none =>
      dsimp only
      split_ifs with hif
      · refine ⟨[lineMsg n ("Configuration outside of section: " ++ jsTrim l)],
          by simp, ?_⟩
        intro e he
        exact ⟨"Configuration outside of section: " ++ jsTrim l,
          by simpa using he⟩
      · exact ⟨[], by simp, by simp⟩
    | some sec =>
      dsimp only
      cases hkv : keyValueMatch l with
      | none =>
        dsimp only
        split_ifs with hif
        · refine ⟨[lineMsg n ("Invalid syntax: " ++ jsTrim l)], by simp, ?_⟩
          intro e he
          exact ⟨"Invalid syntax: " ++ jsTrim l, by simpa using he⟩
        · exact ⟨[], by simp, by simp⟩
      | some kv =>
        dsimp only
        by_cases hif : jsTrim kv.1 ≠ ""
        · rw [if_pos hif]
          cases v with
          | false => exact ⟨[], by simp, by simp⟩
          | true =>
            cases hv : validateParameter sec (jsTrim kv.1) (jsTrim kv.2) with
            | none => exact ⟨[], by simp [hv], by simp⟩
            | some m =>
              refine ⟨[lineMsg n m], by simp [hv], ?_⟩
              intro e he
              exact ⟨m, by simpa using he⟩
        · rw [if_neg hif]
          cases v with
          | false => exact ⟨[], by simp, by simp⟩
          | true =>
            refine ⟨[lineMsg n ("Invalid key-value pair: " ++ jsTrim l)],
              by simp, ?_⟩
            intro e he
            exact ⟨"Invalid key-value pair: " ++ jsTrim l, by simpa using he⟩

theorem goLines_errs_prov (v : Bool) :
    ∀ (lines : List String) (n : Nat) (st : PState) (e : String),
      e ∈ (goLines v lines n st).errs →
      e ∈ st.errs ∨ ∃ j m, e = lineMsg (n + j) m ∧
        ∃ line, lines[j]? = some line ∧
          (commentTest line || jsTrim line == "") = false
  | [], _, _, _, he => Or.inl he
  | [l], n, st, e, he => by
    rw [goLines] at he
    split_ifs at he with hcb
    · exact Or.inl he
    · obtain ⟨F, hF1, hF2⟩ := processLine_errs_shape v n l st
      rw [hF1] at he
      rcases List.mem_append.mp he with h1 | h2
      · exact Or.inl h1
      · obtain ⟨m, hm⟩ := hF2 e h2
        refine Or.inr ⟨0, m, by rw [Nat.add_zero]; exact hm, l, rfl, ?_⟩
        rwa [Bool.not_eq_true] at hcb
  | l :: nxt :: rest, n, st, e, he => by
    rw [goLines] at he
    split_ifs at he with hcb hcont
    · rcases goLines_errs_prov v (nxt :: rest) (n + 1) st e he with
        h1 | ⟨j, m, hm, line, hl, hcond⟩
      · exact Or.inl h1
      · refine Or.inr ⟨j + 1, m, ?_, line, by simpa using hl, hcond⟩
        rw [show n + (j + 1) = n + 1 + j from by omega]
        exact hm
    · rcases goLines_errs_prov v rest (n + 2)
          (processLine v n (stripCont l ++ " " ++ jsTrim nxt) st) e he with
        h1 | ⟨j, m, hm, line, hl, hcond⟩
      · obtain ⟨F, hF1, hF2⟩ :=
          processLine_errs_shape v n (stripCont l ++ " " ++ jsTrim nxt) st
        rw [hF1] at h1
        rcases List.mem_append.mp h1 with h3 | h4
        · exact Or.inl h3
        · obtain ⟨m, hm⟩ := hF2 e h4
          refine Or.inr ⟨0, m, by rw [Nat.add_zero]; exact hm, l, rfl, ?_⟩
          rwa [Bool.not_eq_true] at hcb
      · refine Or.inr ⟨j + 2, m, ?_, line, by simpa using hl, hcond⟩
        rw [show n + (j + 2) = n + 2 + j from by omega]
        exact hm
    · rcases goLines_errs_prov v (nxt :: rest) (n + 1)
          (processLine v n l st) e he with h1 | ⟨j, m, hm, line, hl, hcond⟩
      · obtain ⟨F, hF1, hF2⟩ := processLine_errs_shape v n l st
        rw [hF1] at h1
        rcases List.mem_append.mp h1 with h3 | h4
        · exact Or.inl h3
        · obtain ⟨m, hm⟩ := hF2 e h4
          refine Or.inr ⟨0, m, by rw [Nat.add_zero]; exact hm, l, rfl, ?_⟩
          rwa [Bool.not_eq_true] at hcb
      · refine Or.inr ⟨j + 1, m, ?_, line, by simpa using hl, hcond⟩
        rw [show n + (j + 1) = n + 1 + j from by omega]
        exact hm

/-- C8 amended: under the C6 well-formedness conditions, every diagnostic's
1-based line number identifies a line of the original input text (include
removal replaces each matched line by an empty line, so numbering is not
shifted): the tagged line exists in the original input at that position, is
not an include line, and is neither blank nor a comment. -/
theorem c8_line_numbering_amended (L : List String) (b : Bool)
    (h : goodLines L) :
    ∀ e ∈ (parseConfig ⟨linesChars L⟩ b).errors,
      ∃ n m line, e = lineMsg n m ∧ 1 ≤ n ∧ L[n - 1]? = some line ∧
        matchInclude line.data = none ∧
        (commentTest line || jsTrim line == "") = false := by
  intro e he
  cases L with
  | nil =>
    have hval : (parseConfig ⟨linesChars ([] : List String)⟩ b).errors
        = [] := by
      cases b <;> rfl
    rw [hval] at he
    exact absurd he (by simp)
  | cons l0 rest0 =>
    have hne : blankIncs (l0 :: rest0) ≠ [] := by simp [blankIncs]
    have hfree : ∀ l' ∈ blankIncs (l0 :: rest0), '\n' ∉ l'.data := by
      intro l' hl'
      unfold blankIncs at hl'
      rw [List.mem_map] at hl'
      obtain ⟨x, hx, rfl⟩ := hl'
      by_cases hms : (matchInclude x.data).isSome = true
      · rw [if_pos hms]
        simp
      · rw [if_neg hms]
        intro hmem
        have hcc := (goodLines_all _ h x hx).1 '\n' hmem
        exact absurd hcc (by decide)
    have herrs : (parseConfig ⟨linesChars (l0 :: rest0)⟩ b).errors
        = (goLines b
            (jsSplit '\n' (extractIncludes ⟨linesChars (l0 :: rest0)⟩).2) 1
            ⟨[], none, [], []⟩).errs := rfl
    rw [herrs, extractIncludes_lines _ h] at he
    dsimp only at he
    rw [jsSplit_linesChars (blankIncs (l0 :: rest0)) hfree hne] at he
    rcases goLines_errs_prov b (blankIncs (l0 :: rest0)) 1 ⟨[], none, [], []⟩
        e he with h1 | ⟨j, m, hm, line, hl, hcond⟩
    · exact absurd h1 (by simp)
    · have hmap : (blankIncs (l0 :: rest0))[j]?
          = ((l0 :: rest0)[j]?).map
              (fun l => if (matchInclude l.data).isSome then "" else l) := by
        unfold blankIncs
        exact List.getElem?_map _ _ _
      rw [hmap] at hl
      cases hLj : (l0 :: rest0)[j]? with
      | none =>
        rw [hLj] at hl
        exact absurd hl (by simp)
      | some l2 =>
        rw [hLj] at hl
        simp only [Option.map_some'] at hl
        injection hl with hl2
        cases hmi : matchInclude l2.data with
        | some x =>
          rw [hmi] at hl2
          simp only [Option.isSome_some, if_true] at hl2
          rw [← hl2] at hcond
          exact absurd hcond (by decide)
        | none =>
          rw [hmi] at hl2
          simp only [Option.isSome_none, Bool.false_eq_true, if_false] at hl2
          subst hl2
          refine ⟨j + 1, m, l2, ?_, by omega, ?_, hmi, hcond⟩
          · rw [show (1 : Nat) + j = j + 1 from by omega] at hm
            exact hm
          · rw [Nat.add_sub_cancel]
            exact hLj

theorem c8_line_numbering_amended_witness :
    goodLines ["[include f.cfg]", "x: 1"] ∧
    (parseConfig ⟨linesChars ["[include f.cfg]", "x: 1"]⟩ true).errors
      = ["Line 2: Configuration outside of section: x: 1"] ∧
    (∃ n m line,
      "Line 2: Configuration outside of section: x: 1" = lineMsg n m ∧
      1 ≤ n ∧ (["[include f.cfg]", "x: 1"] : List String)[n - 1]?
        = some line ∧
      matchInclude line.data = none ∧
      (commentTest line || jsTrim line == "") = false) :=
  ⟨by decide, by rfl,
    c8_line_numbering_amended ["[include f.cfg]", "x: 1"] true (by decide)
      "Line 2: Configuration outside of section: x: 1" (by decide)⟩
